import Mathlib

/-!
Shallow embedding of the minesweeper board engine (the `SBoard` structure of
`minesweeper.c`, the ncurses minesweeper implementation) and proofs about it.

C `int8_t` ("TCell") arithmetic is modelled on `Int`, applying `wrap8` exactly
where the C program stores an expression that may leave the `int8_t` range.
Randomness (`rand()`) is modelled by an arbitrary stream `rng : Nat → Nat`
together with an index for the next unconsumed value.  The unbounded `while`
loops of the C code take an explicit fuel argument and return `none` when the
fuel runs out, which lets non-termination be stated and proved.  The recursive
flood fill `r_reveal` takes fuel as well; a fuel of `height * width + 2`, as
used by `reveal`, is proved sufficient below.
-/

namespace Minesweeper

/-- Cell storage type of the engine: C `int8_t` values modelled as integers. -/
abbrev TCell := Int

/-- Two's-complement wrap of an integer into the signed-byte range, the value
left behind by a C `int8_t` store of an `int` expression. -/
def wrap8 (n : Int) : Int := (n + 128) % 256 - 128

/-- Sentinel returned by out-of-range cell accesses (`INT8_MAX`). -/
def ERROR : Int := 127

/-- Mine marker: the character code of the asterisk. -/
def MINE : Int := 42

/-- Revealed marker on the player input board: the character code of `R`. -/
def REVEAL : Int := 82

/-- Flag marker on the player input board: the character code of `F`. -/
def FLAGGED : Int := 70

/-- Blank (hidden) cell value. -/
def BLANK : Int := 0

/-- Character code of the digit zero; a non-mine cell stores `zeroC` plus its
neighbouring-mine count. -/
def zeroC : Int := 48

/-- The board engine state: the fields of the C `SBoard` structure that the
game operations read or write.  The ncurses window handles and the start
timestamp take no part in the game logic and are omitted.  The two flat cell
arrays are modelled as total functions on coordinates; the C accessors bounds
check every access, and distinct in-range coordinates map to distinct flat
indices, so this is exact. -/
@[ext]
structure SBoard where
  curY : Int
  curX : Int
  done : Bool
  win : Bool
  lose : Bool
  revealCount : Int
  flagCount : Int
  height : Int
  width : Int
  mines : Int
  board : Int → Int → Int
  input_board : Int → Int → Int

/-- Bounds check for a cell coordinate. -/
def is_valid (s : SBoard) (y x : Int) : Bool :=
  decide (0 ≤ y ∧ y < s.height ∧ 0 ≤ x ∧ x < s.width)

/-- Read the mine board; out-of-range reads return the `ERROR` sentinel. -/
def get (s : SBoard) (y x : Int) : Int :=
  if is_valid s y x then s.board y x else ERROR

/-- Write the mine board; out-of-range writes are ignored. -/
def set (s : SBoard) (y x v : Int) : SBoard :=
  if is_valid s y x then
    { s with board := fun a b => if a = y ∧ b = x then v else s.board a b }
  else s

/-- Read the player input board; out-of-range reads return `ERROR`. -/
def geti (s : SBoard) (y x : Int) : Int :=
  if is_valid s y x then s.input_board y x else ERROR

/-- Write the player input board; out-of-range writes are ignored. -/
def seti (s : SBoard) (y x v : Int) : SBoard :=
  if is_valid s y x then
    { s with input_board := fun a b => if a = y ∧ b = x then v else s.input_board a b }
  else s

/-- The `random` helper: a number in the half-open range, drawn from the
stream at index `k` (the value `rng k` plays the role of one `rand()` call). -/
def random (rng : Nat → Nat) (k : Nat) (start stop : Int) : Int :=
  if start < 0 ∨ stop < 1 ∨ start ≥ stop then ERROR
  else
    let r := (rng k : Int) % (stop - start) + start
    if r > ERROR then ERROR else r

/-- Number of reveals required to win, as the `int8_t` return value of the C
function: the product and difference are computed in `int` and truncated back
to a signed byte on return. -/
def max_reveal (s : SBoard) : Int := wrap8 (s.height * s.width - s.mines)

/-- The nine cells scanned by the neighbour loops of `count_neighbors` and
`r_reveal`, in the row-major order of the two nested C `for` loops; the centre
cell is skipped by the loop guards, not by the list. -/
def neighborOffsets (y x : Int) : List (Int × Int) :=
  [(y-1, x-1), (y-1, x), (y-1, x+1),
   (y,   x-1), (y,   x), (y,   x+1),
   (y+1, x-1), (y+1, x), (y+1, x+1)]

/-- Count the neighbouring cells holding a mine. -/
def count_neighbors (s : SBoard) (y x : Int) : Int :=
  (neighborOffsets y x).foldl
    (fun count c =>
      if is_valid s c.1 c.2 ∧ ¬(c.1 = y ∧ c.2 = x) ∧ get s c.1 c.2 = MINE then count + 1
      else count) 0

/-- Cells of one grid row, in column order. -/
def rowCoords (y : Int) (w : Nat) : List (Int × Int) :=
  (List.range w).map fun x : Nat => (y, (x : Int))

/-- All grid cells in the row-major order of the C loops over the board. -/
def coordList : Nat → Nat → List (Int × Int)
  | 0, _ => []
  | h + 1, w => coordList h w ++ rowCoords (h : Int) w

/-- Number of cells of the mine board holding a mine. -/
def countMines (s : SBoard) : Nat :=
  (coordList s.height.toNat s.width.toNat).countP fun c => decide (get s c.1 c.2 = MINE)

/-- Number of in-range cells the player has not revealed. -/
def unrevealed (s : SBoard) : Nat :=
  (coordList s.height.toNat s.width.toNat).countP fun c => decide (geti s c.1 c.2 ≠ REVEAL)

/-- The mine-board invariant established by board set-up: every non-mine cell
stores `zeroC` plus its neighbouring-mine count. -/
def wellFormedB (s : SBoard) : Prop :=
  ∀ c ∈ coordList s.height.toNat s.width.toNat,
    s.board c.1 c.2 ≠ MINE → s.board c.1 c.2 = zeroC + count_neighbors s c.1 c.2

instance wellFormedB.dec (s : SBoard) : Decidable (wellFormedB s) := by
  unfold wellFormedB; exact List.decidableBAll _ _

/-- The fields of the state that the flood fill never changes: `sameFrame s t`
says `t` agrees with `s` on all of them. -/
def sameFrame (s t : SBoard) : Prop :=
  t.height = s.height ∧ t.width = s.width ∧ t.mines = s.mines ∧ t.board = s.board ∧
  t.curY = s.curY ∧ t.curX = s.curX ∧ t.flagCount = s.flagCount

/-- The state resets performed at the top of `init`: state variables reset and
both cell arrays reallocated zeroed. -/
def initBoard (s : SBoard) : SBoard :=
  { s with done := false, win := false, lose := false,
           revealCount := 0, flagCount := 0,
           board := fun _ _ => BLANK, input_board := fun _ _ => BLANK }

/-- The mine-placement `while` loop of `init`: sample a cell; if it is still
empty, place a mine there, until `mines` mines have been placed.  Returns the
state and the next unconsumed stream index, or `none` if the loop fails to
finish within `fuel` iterations. -/
def placeMines : Nat → (Nat → Nat) → Nat → SBoard → Int → Option (SBoard × Nat)
  | fuel, rng, k, s, minesAdded =>
    if minesAdded < s.mines then
      match fuel with
      | 0 => none
      | Nat.succ f =>
          let y := random rng k 0 s.height
          let x := random rng (k + 1) 0 s.width
          if get s y x = 0 then
            placeMines f rng (k + 2) (set s y x MINE) (minesAdded + 1)
          else
            placeMines f rng (k + 2) s minesAdded
    else some (s, k)

/-- The neighbour-count pass of `init`: every non-mine cell is overwritten, in
row-major order, with `count_neighbors + '0'` as computed on the board at that
moment of the pass. -/
def fillCounts (s : SBoard) : SBoard :=
  (coordList s.height.toNat s.width.toNat).foldl
    (fun acc c =>
      if get acc c.1 c.2 ≠ MINE then
        set acc c.1 c.2 (count_neighbors acc c.1 c.2 + zeroC)
      else acc) s

/-- `init`: reset the state, place the mines, compute the neighbour counts.
(The clock re-arm at the end of `init` has no game-logic effect.) -/
def init (fuel : Nat) (rng : Nat → Nat) (k : Nat) (s : SBoard) : Option (SBoard × Nat) :=
  match placeMines fuel rng k (initBoard s) 0 with
  | none => none
  | some (s1, k1) => some (fillCounts s1, k1)

/-- A fresh engine state as built by the `SBoard` constructor before `init`
runs: cursor at the origin, flags cleared and empty boards. -/
def SBoard.mk0 (h w m : Int) : SBoard :=
  { curY := 0, curX := 0, done := false, win := false, lose := false,
    revealCount := 0, flagCount := 0, height := h, width := w, mines := m,
    board := fun _ _ => BLANK, input_board := fun _ _ => BLANK }

/-- The cell-reveal step at the top of the body of `r_reveal`: if the cell is
not already revealed, mark it revealed and bump `revealCount` (the C code
increments the `int8_t` counter even when the bounds-checked write itself is
refused, which matches this definition; such a call never happens from
`reveal`, whose cursor is always in range). -/
def revealCell (s : SBoard) (y x : Int) : SBoard :=
  if geti s y x ≠ REVEAL then
    { seti s y x REVEAL with revealCount := wrap8 (s.revealCount + 1) }
  else s

/-- The recursive flood-fill reveal.  The C function recurses without bound;
here each nesting level consumes one unit of fuel, and `r_reveal_fuel_stable`
below shows that any fuel beyond the number of unrevealed cells plus one gives
the same result, so the fuel `height * width + 2` used by `reveal` is always
sufficient. -/
def r_reveal : Nat → SBoard → Int → Int → SBoard
  | 0, s, _, _ => s
  | Nat.succ fuel, s, y, x =>
    if s.done then s
    else if geti s y x = FLAGGED then s
    else
      let s1 := revealCell s y x
      if get s1 y x = MINE then { s1 with win := false, lose := true, done := true }
      else if s1.revealCount ≥ max_reveal s1 then { s1 with win := true, lose := false, done := true }
      else if get s1 y x = zeroC then
        (neighborOffsets y x).foldl
          (fun acc c =>
            if is_valid acc c.1 c.2 ∧ ¬(c.1 = y ∧ c.2 = x) ∧ geti acc c.1 c.2 ≠ REVEAL then
              r_reveal fuel acc c.1 c.2
            else acc) s1
      else s1

/-- Ghost-instrumented copy of `r_reveal` that also returns the list of cells
the fill processes: a cell is recorded when an invocation of the function on
it passes the game-over and flagged-cell guards and reaches the code that
reveals the cell.  (Invocations that return at a guard record nothing.) -/
def r_revealT : Nat → SBoard → Int → Int → SBoard × List (Int × Int)
  | 0, s, _, _ => (s, [])
  | Nat.succ fuel, s, y, x =>
    if s.done then (s, [])
    else if geti s y x = FLAGGED then (s, [])
    else
      let s1 := revealCell s y x
      if get s1 y x = MINE then ({ s1 with win := false, lose := true, done := true }, [(y, x)])
      else if s1.revealCount ≥ max_reveal s1 then
        ({ s1 with win := true, lose := false, done := true }, [(y, x)])
      else if get s1 y x = zeroC then
        (neighborOffsets y x).foldl
          (fun acc c =>
            if is_valid acc.1 c.1 c.2 ∧ ¬(c.1 = y ∧ c.2 = x) ∧ geti acc.1 c.1 c.2 ≠ REVEAL then
              let t := r_revealT fuel acc.1 c.1 c.2
              (t.1, acc.2 ++ t.2)
            else acc) (s1, [(y, x)])
      else (s1, [(y, x)])

/-- The first-move safety loop at the top of `reveal`: while no cell has been
revealed and the cursor sits on a mine, re-run `init`. -/
def firstLoop : Nat → (Nat → Nat) → Nat → Nat → SBoard → Option (SBoard × Nat)
  | fuel, rng, k, placeFuel, s =>
    if s.revealCount = 0 ∧ get s s.curY s.curX = MINE then
      match fuel with
      | 0 => none
      | Nat.succ f =>
        match init placeFuel rng k s with
        | none => none
        | some (s1, k1) => firstLoop f rng k1 placeFuel s1
    else some (s, k)

/-- `reveal`: run the first-move safety loop, then flood fill from the cursor.
(The timer re-arm on the first successful reveal has no game-logic effect and
is not modelled.) -/
def reveal (loopFuel placeFuel : Nat) (rng : Nat → Nat) (k : Nat) (s : SBoard) : Option SBoard :=
  match firstLoop loopFuel rng k placeFuel s with
  | none => none
  | some (s1, _) => some (r_reveal (s1.height.toNat * s1.width.toNat + 2) s1 s1.curY s1.curX)

/-- Toggle the flag on the cursor cell. -/
def flag (s : SBoard) : SBoard :=
  if geti s s.curY s.curX = BLANK then
    { seti s s.curY s.curX FLAGGED with flagCount := wrap8 (s.flagCount + 1) }
  else if geti s s.curY s.curX = FLAGGED then
    { seti s s.curY s.curX BLANK with flagCount := wrap8 (s.flagCount - 1) }
  else s

/-- Move the cursor by a delta, refusing out-of-bounds results.  The C sums
`dy + curY` and `dx + curX` are computed in `int` and stored into `int8_t`
locals before the bounds check, hence the `wrap8`. -/
def move_cur (s : SBoard) (dy dx : Int) : SBoard :=
  let newY := wrap8 (dy + s.curY)
  let newX := wrap8 (dx + s.curX)
  if is_valid s newY newX then { s with curY := newY, curX := newX } else s

/-- Quit the game. -/
def quit (s : SBoard) : SBoard := { s with done := true }

/-- The constant-zero random stream, used for concrete runs. -/
def rng0 : Nat → Nat := fun _ => 0

/-- The identity random stream, used for concrete runs. -/
def rngId : Nat → Nat := fun k => k

/-- A well-formed one-cell zero-mine board about to receive its first
reveal. -/
def sC1 : SBoard := { SBoard.mk0 1 1 0 with board := fun _ _ => zeroC }

/-- The state after revealing the only cell of `sC1`. -/
def sC1r : SBoard := r_reveal 3 sC1 0 0

/-- The board produced by running `init` on a fresh 2 by 2 board with one
mine, using the constant-zero stream (the mine lands on the origin cell). -/
def sC2r : SBoard := ((init 3 rng0 0 (SBoard.mk0 2 2 1)).getD (SBoard.mk0 2 2 1, 0)).1

/-- An 8 by 17 zero-mine board in play: every cell is a zero-count cell, and
the win threshold `(int8_t)(8*17 - 0)` wraps to -120. -/
def s3 : SBoard := { SBoard.mk0 8 17 0 with board := fun _ _ => zeroC }

/-- The state after calling reveal on `s3` with the cursor at the origin. -/
def s3r : SBoard := r_reveal (8 * 17 + 2) s3 0 0

/-- Mine predicate of the expert-preset demonstration board: 99 mines packed
into rows 12 to 15 of the 16 by 30 grid. -/
def mineAt4 (y x : Int) : Bool := decide (13 ≤ y) || (decide (y = 12) && decide (x ≤ 8))

/-- Neighbouring-mine count of the demonstration mine layout, written as a
plain function so the whole board can be a single closed term. -/
def cnt4 (y x : Int) : Int :=
  (neighborOffsets y x).foldl
    (fun n c =>
      if (0 ≤ c.1 ∧ c.1 < 16 ∧ 0 ≤ c.2 ∧ c.2 < 30) ∧ ¬(c.1 = y ∧ c.2 = x) ∧ mineAt4 c.1 c.2 then
        n + 1
      else n) 0

/-- Mine board of the expert-preset demonstration state. -/
def board4 : Int → Int → Int := fun y x => if mineAt4 y x then MINE else zeroC + cnt4 y x

/-- Input board of the expert-preset demonstration state: rows 0 to 3 and the
first four cells of row 4 are revealed, 124 cells in total. -/
def input4 : Int → Int → Int := fun y x => if y ≤ 3 ∨ (y = 4 ∧ x ≤ 3) then REVEAL else BLANK

/-- An expert-preset game (16 by 30 grid, 99 mines) with 124 safe cells
revealed and the cursor on an unrevealed safe cell. -/
def s4 : SBoard :=
  { curY := 4, curX := 10, done := false, win := false, lose := false,
    revealCount := 124, flagCount := 0, height := 16, width := 30, mines := 99,
    board := board4, input_board := input4 }

/-- The state after calling reveal on `s4`. -/
def s4r : SBoard := r_reveal (16 * 30 + 2) s4 4 10

/-- A 1 by 2 one-mine board built by `init` with the identity stream: the
mine lands on cell (0,1), the safe cell (0,0) holds the count 1. -/
def s6i : SBoard := ((init 4 rngId 0 (SBoard.mk0 1 2 1)).getD (SBoard.mk0 1 2 1, 0)).1

/-- The terminal Won state reached by revealing cell (0,0) of `s6i`. -/
def s6won : SBoard := (reveal 0 4 rngId 0 s6i).getD s6i

/-- A one-cell zero-mine board whose only cell is flagged. -/
def s10 : SBoard :=
  { SBoard.mk0 1 1 0 with board := fun _ _ => zeroC, input_board := fun _ _ => FLAGGED }

set_option maxRecDepth 100000

theorem wrap8_eq_self {n : Int} (h1 : -128 ≤ n) (h2 : n ≤ 127) : wrap8 n = n := by
  unfold wrap8; omega

theorem wrap8_lb (n : Int) : -128 ≤ wrap8 n := by unfold wrap8; omega

theorem wrap8_ub (n : Int) : wrap8 n ≤ 127 := by unfold wrap8; omega

theorem wrap8_wrap8_add (a b : Int) : wrap8 (wrap8 a + b) = wrap8 (a + b) := by
  unfold wrap8; omega

theorem is_valid_iff (s : SBoard) (y x : Int) :
    is_valid s y x = true ↔ 0 ≤ y ∧ y < s.height ∧ 0 ≤ x ∧ x < s.width := by
  unfold is_valid; simp

theorem is_valid_of_dims_eq {s t : SBoard} (hh : t.height = s.height) (hw : t.width = s.width)
    (y x : Int) : is_valid t y x = is_valid s y x := by
  unfold is_valid; rw [hh, hw]

@[simp] theorem set_curY (s : SBoard) (y x v : Int) : (set s y x v).curY = s.curY := by
  unfold set; split <;> rfl

@[simp] theorem set_curX (s : SBoard) (y x v : Int) : (set s y x v).curX = s.curX := by
  unfold set; split <;> rfl

@[simp] theorem set_done (s : SBoard) (y x v : Int) : (set s y x v).done = s.done := by
  unfold set; split <;> rfl

@[simp] theorem set_win (s : SBoard) (y x v : Int) : (set s y x v).win = s.win := by
  unfold set; split <;> rfl

@[simp] theorem set_lose (s : SBoard) (y x v : Int) : (set s y x v).lose = s.lose := by
  unfold set; split <;> rfl

@[simp] theorem set_revealCount (s : SBoard) (y x v : Int) :
    (set s y x v).revealCount = s.revealCount := by
  unfold set; split <;> rfl

@[simp] theorem set_flagCount (s : SBoard) (y x v : Int) :
    (set s y x v).flagCount = s.flagCount := by
  unfold set; split <;> rfl

@[simp] theorem set_height (s : SBoard) (y x v : Int) : (set s y x v).height = s.height := by
  unfold set; split <;> rfl

@[simp] theorem set_width (s : SBoard) (y x v : Int) : (set s y x v).width = s.width := by
  unfold set; split <;> rfl

@[simp] theorem set_mines (s : SBoard) (y x v : Int) : (set s y x v).mines = s.mines := by
  unfold set; split <;> rfl

@[simp] theorem set_input_board (s : SBoard) (y x v : Int) :
    (set s y x v).input_board = s.input_board := by
  unfold set; split <;> rfl

@[simp] theorem seti_curY (s : SBoard) (y x v : Int) : (seti s y x v).curY = s.curY := by
  unfold seti; split <;> rfl

@[simp] theorem seti_curX (s : SBoard) (y x v : Int) : (seti s y x v).curX = s.curX := by
  unfold seti; split <;> rfl

@[simp] theorem seti_done (s : SBoard) (y x v : Int) : (seti s y x v).done = s.done := by
  unfold seti; split <;> rfl

@[simp] theorem seti_win (s : SBoard) (y x v : Int) : (seti s y x v).win = s.win := by
  unfold seti; split <;> rfl

@[simp] theorem seti_lose (s : SBoard) (y x v : Int) : (seti s y x v).lose = s.lose := by
  unfold seti; split <;> rfl

@[simp] theorem seti_revealCount (s : SBoard) (y x v : Int) :
    (seti s y x v).revealCount = s.revealCount := by
  unfold seti; split <;> rfl

@[simp] theorem seti_flagCount (s : SBoard) (y x v : Int) :
    (seti s y x v).flagCount = s.flagCount := by
  unfold seti; split <;> rfl

@[simp] theorem seti_height (s : SBoard) (y x v : Int) : (seti s y x v).height = s.height := by
  unfold seti; split <;> rfl

@[simp] theorem seti_width (s : SBoard) (y x v : Int) : (seti s y x v).width = s.width := by
  unfold seti; split <;> rfl

@[simp] theorem seti_mines (s : SBoard) (y x v : Int) : (seti s y x v).mines = s.mines := by
  unfold seti; split <;> rfl

@[simp] theorem seti_board (s : SBoard) (y x v : Int) : (seti s y x v).board = s.board := by
  unfold seti; split <;> rfl

@[simp] theorem is_valid_set (s : SBoard) (y x v a b : Int) :
    is_valid (set s y x v) a b = is_valid s a b :=
  is_valid_of_dims_eq (set_height s y x v) (set_width s y x v) a b

@[simp] theorem is_valid_seti (s : SBoard) (y x v a b : Int) :
    is_valid (seti s y x v) a b = is_valid s a b :=
  is_valid_of_dims_eq (seti_height s y x v) (seti_width s y x v) a b

theorem get_set_self {s : SBoard} {y x : Int} (v : Int) (h : is_valid s y x = true) :
    get (set s y x v) y x = v := by
  unfold get
  rw [is_valid_set, if_pos h]
  show (set s y x v).board y x = v
  unfold set
  rw [if_pos h]
  show (if y = y ∧ x = x then v else s.board y x) = v
  rw [if_pos ⟨rfl, rfl⟩]

theorem get_set_of_ne {s : SBoard} {y x a b : Int} (v : Int) (h : ¬(a = y ∧ b = x)) :
    get (set s y x v) a b = get s a b := by
  unfold get
  rw [is_valid_set]
  by_cases hab : is_valid s a b = true
  · rw [if_pos hab, if_pos hab]
    show (set s y x v).board a b = s.board a b
    unfold set
    by_cases hv : is_valid s y x = true
    · rw [if_pos hv]
      show (if a = y ∧ b = x then v else s.board a b) = s.board a b
      rw [if_neg h]
    · rw [if_neg hv]
  · rw [if_neg hab, if_neg hab]

theorem geti_seti_self {s : SBoard} {y x : Int} (v : Int) (h : is_valid s y x = true) :
    geti (seti s y x v) y x = v := by
  unfold geti
  rw [is_valid_seti, if_pos h]
  show (seti s y x v).input_board y x = v
  unfold seti
  rw [if_pos h]
  show (if y = y ∧ x = x then v else s.input_board y x) = v
  rw [if_pos ⟨rfl, rfl⟩]

theorem geti_seti_of_ne {s : SBoard} {y x a b : Int} (v : Int) (h : ¬(a = y ∧ b = x)) :
    geti (seti s y x v) a b = geti s a b := by
  unfold geti
  rw [is_valid_seti]
  by_cases hab : is_valid s a b = true
  · rw [if_pos hab, if_pos hab]
    show (seti s y x v).input_board a b = s.input_board a b
    unfold seti
    by_cases hv : is_valid s y x = true
    · rw [if_pos hv]
      show (if a = y ∧ b = x then v else s.input_board a b) = s.input_board a b
      rw [if_neg h]
    · rw [if_neg hv]
  · rw [if_neg hab, if_neg hab]

theorem get_seti (s : SBoard) (y x v a b : Int) : get (seti s y x v) a b = get s a b := by
  unfold get
  rw [is_valid_seti, seti_board]

theorem geti_set (s : SBoard) (y x v a b : Int) : geti (set s y x v) a b = geti s a b := by
  unfold geti
  rw [is_valid_set, set_input_board]

theorem valid_of_geti_ne {s : SBoard} {y x : Int} (h : geti s y x ≠ ERROR) :
    is_valid s y x = true := by
  unfold geti at h
  by_cases hv : is_valid s y x = true
  · exact hv
  · simp at hv; rw [hv] at h; simp at h

theorem valid_of_get_ne {s : SBoard} {y x : Int} (h : get s y x ≠ ERROR) :
    is_valid s y x = true := by
  unfold get at h
  by_cases hv : is_valid s y x = true
  · exact hv
  · simp at hv; rw [hv] at h; simp at h

theorem geti_eq_of_valid {s : SBoard} {y x : Int} (h : is_valid s y x = true) :
    geti s y x = s.input_board y x := by
  unfold geti; rw [h]; simp

theorem get_eq_of_valid {s : SBoard} {y x : Int} (h : is_valid s y x = true) :
    get s y x = s.board y x := by
  unfold get; rw [h]; simp

theorem countP_congr_mem {α : Type} (l : List α) (p q : α → Bool)
    (h : ∀ c ∈ l, p c = q c) : l.countP p = l.countP q := by
  induction l with
  | nil => rfl
  | cons a t ih =>
      rw [List.countP_cons, List.countP_cons, h a (by simp),
        ih fun c hc => h c (by simp [hc])]

theorem countP_mono_mem {α : Type} (l : List α) (p q : α → Bool)
    (h : ∀ c ∈ l, q c = true → p c = true) : l.countP q ≤ l.countP p := by
  induction l with
  | nil => exact Nat.le_refl 0
  | cons a t ih =>
      have ht : t.countP q ≤ t.countP p := ih fun c hc => h c (by simp [hc])
      by_cases hq : q a = true
      · rw [List.countP_cons_of_pos _ _ hq, List.countP_cons_of_pos _ _ (h a (by simp) hq)]
        omega
      · rw [List.countP_cons_of_neg _ _ hq]
        by_cases hp : p a = true
        · rw [List.countP_cons_of_pos _ _ hp]; omega
        · rw [List.countP_cons_of_neg _ _ hp]; omega

theorem countP_flip_true {α : Type} [DecidableEq α] (l : List α) (p q : α → Bool) (c : α)
    (hnd : l.Nodup) (hc : c ∈ l) (hp : p c = false) (hq : q c = true)
    (hrest : ∀ d ∈ l, d ≠ c → p d = q d) : l.countP q = l.countP p + 1 := by
  induction l with
  | nil => cases hc
  | cons a t ih =>
      rcases List.mem_cons.mp hc with rfl | hct
      · have ht : t.countP p = t.countP q := by
          apply countP_congr_mem
          intro d hd
          exact hrest d (by simp [hd]) (by rintro rfl; exact (List.nodup_cons.mp hnd).1 hd)
        rw [List.countP_cons_of_pos _ _ hq, List.countP_cons_of_neg _ _ (by simp [hp]), ht]
      · have ha : p a = q a :=
          hrest a (by simp) (by rintro rfl; exact (List.nodup_cons.mp hnd).1 hct)
        have ht := ih (List.nodup_cons.mp hnd).2 hct fun d hd hdc => hrest d (by simp [hd]) hdc
        by_cases hqa : q a = true
        · rw [List.countP_cons_of_pos _ _ hqa, List.countP_cons_of_pos _ _ (by rw [ha]; exact hqa),
            ht]
        · rw [List.countP_cons_of_neg _ _ hqa, List.countP_cons_of_neg _ _ (by rw [ha]; exact hqa),
            ht]

theorem mem_rowCoords {y : Int} {w : Nat} {c : Int × Int} :
    c ∈ rowCoords y w ↔ c.1 = y ∧ 0 ≤ c.2 ∧ c.2 < (w : Int) := by
  obtain ⟨cy, cx⟩ := c
  unfold rowCoords
  simp only [List.mem_map, List.mem_range, Prod.mk.injEq]
  constructor
  · rintro ⟨n, hn, rfl, rfl⟩
    exact ⟨rfl, by omega, by omega⟩
  · rintro ⟨rfl, h2, h3⟩
    exact ⟨cx.toNat, by omega, rfl, by omega⟩

theorem mem_coordList {h w : Nat} {c : Int × Int} :
    c ∈ coordList h w ↔ 0 ≤ c.1 ∧ c.1 < (h : Int) ∧ 0 ≤ c.2 ∧ c.2 < (w : Int) := by
  induction h with
  | zero => simp [coordList]; omega
  | succ n ih =>
      unfold coordList
      rw [List.mem_append, ih, mem_rowCoords]
      push_cast
      omega

theorem nodup_coordList (h w : Nat) : (coordList h w).Nodup := by
  induction h with
  | zero => exact List.nodup_nil
  | succ n ih =>
      unfold coordList
      refine List.Nodup.append ih ?_ ?_
      · unfold rowCoords
        apply List.Nodup.map
        · intro a b hab
          simpa using congrArg Prod.snd hab
        · exact List.nodup_range w
      · intro c hc1 hc2
        rw [mem_coordList] at hc1
        rw [mem_rowCoords] at hc2
        omega

theorem length_coordList (h w : Nat) : (coordList h w).length = h * w := by
  induction h with
  | zero => simp [coordList]
  | succ n ih =>
      unfold coordList rowCoords
      simp only [List.length_append, ih, List.length_map, List.length_range]
      ring

theorem foldl_count_bounds (P : Int × Int → Prop) [DecidablePred P]
    (l : List (Int × Int)) (n : Int) :
    n ≤ l.foldl (fun m c => if P c then m + 1 else m) n ∧
      l.foldl (fun m c => if P c then m + 1 else m) n ≤ n + (l.length : Int) := by
  induction l generalizing n with
  | nil => simp
  | cons a t ih =>
      simp only [List.foldl_cons, List.length_cons]
      by_cases h : P a
      · rw [if_pos h]
        have := ih (n + 1)
        constructor
        · omega
        · push_cast
          omega
      · rw [if_neg h]
        have := ih n
        constructor
        · omega
        · push_cast
          omega

theorem foldl_count_all_false (P : Int × Int → Prop) [DecidablePred P]
    (l : List (Int × Int)) (n : Int)
    (h : l.foldl (fun m c => if P c then m + 1 else m) n = n) : ∀ c ∈ l, ¬P c := by
  induction l generalizing n with
  | nil => intro c hc; cases hc
  | cons a t ih =>
      simp only [List.foldl_cons] at h
      by_cases ha : P a
      · rw [if_pos ha] at h
        have := (foldl_count_bounds P t (n + 1)).1
        omega
      · rw [if_neg ha] at h
        intro c hc
        rcases List.mem_cons.mp hc with rfl | hct
        · exact ha
        · exact ih n h c hct

theorem foldl_count_congr (P Q : Int × Int → Prop) [DecidablePred P] [DecidablePred Q]
    (l : List (Int × Int)) (n : Int) (h : ∀ c ∈ l, P c ↔ Q c) :
    l.foldl (fun m c => if P c then m + 1 else m) n =
      l.foldl (fun m c => if Q c then m + 1 else m) n := by
  induction l generalizing n with
  | nil => rfl
  | cons a t ih =>
      simp only [List.foldl_cons]
      by_cases ha : P a
      · rw [if_pos ha, if_pos ((h a (by simp)).mp ha)]
        exact ih _ fun c hc => h c (by simp [hc])
      · rw [if_neg ha, if_neg (fun hq => ha ((h a (by simp)).mpr hq))]
        exact ih _ fun c hc => h c (by simp [hc])

theorem count_neighbors_nonneg (s : SBoard) (y x : Int) : 0 ≤ count_neighbors s y x :=
  (foldl_count_bounds
    (fun c => is_valid s c.1 c.2 ∧ ¬(c.1 = y ∧ c.2 = x) ∧ get s c.1 c.2 = MINE)
    (neighborOffsets y x) 0).1

theorem count_neighbors_le_8 (s : SBoard) (y x : Int) : count_neighbors s y x ≤ 8 := by
  have hsplit : neighborOffsets y x =
      [(y-1, x-1), (y-1, x), (y-1, x+1), (y, x-1)] ++
        (y, x) :: [(y, x+1), (y+1, x-1), (y+1, x), (y+1, x+1)] := rfl
  unfold count_neighbors
  rw [hsplit, List.foldl_append, List.foldl_cons]
  have hmid : ∀ m : Int,
      (if is_valid s (y, x).1 (y, x).2 ∧ ¬((y, x).1 = y ∧ (y, x).2 = x) ∧
          get s (y, x).1 (y, x).2 = MINE then m + 1 else m) = m := by
    intro m
    exact if_neg fun hx => hx.2.1 ⟨rfl, rfl⟩
  rw [hmid]
  have h1 := (foldl_count_bounds
    (fun c => is_valid s c.1 c.2 ∧ ¬(c.1 = y ∧ c.2 = x) ∧ get s c.1 c.2 = MINE)
    [(y-1, x-1), (y-1, x), (y-1, x+1), (y, x-1)] 0)
  have h2 := (foldl_count_bounds
    (fun c => is_valid s c.1 c.2 ∧ ¬(c.1 = y ∧ c.2 = x) ∧ get s c.1 c.2 = MINE)
    [(y, x+1), (y+1, x-1), (y+1, x), (y+1, x+1)]
    (List.foldl (fun m c => if is_valid s c.1 c.2 ∧ ¬(c.1 = y ∧ c.2 = x) ∧
      get s c.1 c.2 = MINE then m + 1 else m) 0 [(y-1, x-1), (y-1, x), (y-1, x+1), (y, x-1)]))
  simp only [List.length_cons, List.length_nil] at h1 h2
  omega

theorem no_mine_neighbor_of_count_zero {s : SBoard} {y x : Int}
    (h0 : count_neighbors s y x = 0) :
    ∀ c ∈ neighborOffsets y x, is_valid s c.1 c.2 = true → ¬(c.1 = y ∧ c.2 = x) →
      get s c.1 c.2 ≠ MINE := by
  intro c hc hv hne hm
  exact foldl_count_all_false _ _ 0 h0 c hc ⟨hv, hne, hm⟩

theorem foldl_pres_mem {α : Type} (P : α → Prop) (step : α → Int × Int → α)
    (l : List (Int × Int)) (h : ∀ a c, c ∈ l → P a → P (step a c)) :
    ∀ a, P a → P (l.foldl step a) := by
  induction l with
  | nil => intro a ha; exact ha
  | cons c t ih =>
      intro a ha
      exact ih (fun a d hd => h a d (by simp [hd])) (step a c) (h a c (by simp) ha)

theorem sameFrame_refl (s : SBoard) : sameFrame s s := ⟨rfl, rfl, rfl, rfl, rfl, rfl, rfl⟩

theorem sameFrame_trans {s t u : SBoard} (h1 : sameFrame s t) (h2 : sameFrame t u) :
    sameFrame s u :=
  ⟨h2.1.trans h1.1, h2.2.1.trans h1.2.1, h2.2.2.1.trans h1.2.2.1,
   h2.2.2.2.1.trans h1.2.2.2.1, h2.2.2.2.2.1.trans h1.2.2.2.2.1,
   h2.2.2.2.2.2.1.trans h1.2.2.2.2.2.1, h2.2.2.2.2.2.2.trans h1.2.2.2.2.2.2⟩

theorem is_valid_of_sameFrame {s t : SBoard} (h : sameFrame s t) (a b : Int) :
    is_valid t a b = is_valid s a b :=
  is_valid_of_dims_eq h.1 h.2.1 a b

theorem get_of_sameFrame {s t : SBoard} (h : sameFrame s t) (a b : Int) :
    get t a b = get s a b := by
  unfold get
  rw [is_valid_of_sameFrame h, h.2.2.2.1]

theorem count_neighbors_of_sameFrame {s t : SBoard} (h : sameFrame s t) (y x : Int) :
    count_neighbors t y x = count_neighbors s y x := by
  unfold count_neighbors
  apply foldl_count_congr
  intro c _
  rw [is_valid_of_sameFrame h, get_of_sameFrame h]

theorem wellFormedB_of_sameFrame {s t : SBoard} (h : sameFrame s t) (hwf : wellFormedB s) :
    wellFormedB t := by
  intro c hc hm
  rw [h.1, h.2.1] at hc
  rw [h.2.2.2.1] at hm ⊢
  rw [count_neighbors_of_sameFrame h]
  exact hwf c hc hm

theorem revealCell_frame (s : SBoard) (y x : Int) : sameFrame s (revealCell s y x) := by
  unfold revealCell sameFrame
  split <;> simp

@[simp] theorem revealCell_done (s : SBoard) (y x : Int) : (revealCell s y x).done = s.done := by
  unfold revealCell; split <;> simp

@[simp] theorem revealCell_win (s : SBoard) (y x : Int) : (revealCell s y x).win = s.win := by
  unfold revealCell; split <;> simp

@[simp] theorem revealCell_lose (s : SBoard) (y x : Int) : (revealCell s y x).lose = s.lose := by
  unfold revealCell; split <;> simp

theorem geti_rc_update (t : SBoard) (n a b : Int) :
    geti { t with revealCount := n } a b = geti t a b := rfl

theorem geti_mark (t : SBoard) (w l d : Bool) (a b : Int) :
    geti { t with win := w, lose := l, done := d } a b = geti t a b := rfl

theorem geti_revealCell_of_ne {s : SBoard} {y x a b : Int} (h : ¬(a = y ∧ b = x)) :
    geti (revealCell s y x) a b = geti s a b := by
  unfold revealCell
  split
  · rw [geti_rc_update, geti_seti_of_ne _ h]
  · rfl

theorem geti_revealCell_self {s : SBoard} {y x : Int} (hv : is_valid s y x = true) :
    geti (revealCell s y x) y x = REVEAL := by
  unfold revealCell
  by_cases h : geti s y x ≠ REVEAL
  · rw [if_pos h, geti_rc_update, geti_seti_self _ hv]
  · push_neg at h
    rw [if_neg (by simpa using h)]
    exact h

theorem geti_revealCell_keeps {s : SBoard} {y x a b : Int} (h : geti s a b = REVEAL) :
    geti (revealCell s y x) a b = REVEAL := by
  by_cases heq : a = y ∧ b = x
  · obtain ⟨rfl, rfl⟩ := heq
    exact geti_revealCell_self (valid_of_geti_ne (by rw [h]; decide))
  · rw [geti_revealCell_of_ne heq]; exact h

theorem geti_revealCell_keeps_flag {s : SBoard} {y x a b : Int} (hflag : geti s a b = FLAGGED)
    (hne : geti s y x ≠ FLAGGED) : geti (revealCell s y x) a b = FLAGGED := by
  have heq : ¬(a = y ∧ b = x) := by rintro ⟨rfl, rfl⟩; exact hne hflag
  rw [geti_revealCell_of_ne heq]; exact hflag

theorem r_reveal_of_done {s : SBoard} (h : s.done = true) (fuel : Nat) (y x : Int) :
    r_reveal fuel s y x = s := by
  cases fuel with
  | zero => rfl
  | succ f =>
      unfold r_reveal
      rw [if_pos h]

theorem r_reveal_of_flag {s : SBoard} {y x : Int} (f : Nat) (hdone : s.done = false)
    (hflag : geti s y x = FLAGGED) : r_reveal (Nat.succ f) s y x = s := by
  unfold r_reveal
  rw [if_neg (by simp [hdone]), if_pos hflag]

theorem r_reveal_succ_eq (f : Nat) (s : SBoard) (y x : Int) (hdone : s.done = false)
    (hflag : geti s y x ≠ FLAGGED) :
    r_reveal (Nat.succ f) s y x =
      (if get (revealCell s y x) y x = MINE then
        { revealCell s y x with win := false, lose := true, done := true }
      else if (revealCell s y x).revealCount ≥ max_reveal (revealCell s y x) then
        { revealCell s y x with win := true, lose := false, done := true }
      else if get (revealCell s y x) y x = zeroC then
        (neighborOffsets y x).foldl
          (fun acc c =>
            if is_valid acc c.1 c.2 ∧ ¬(c.1 = y ∧ c.2 = x) ∧ geti acc c.1 c.2 ≠ REVEAL then
              r_reveal f acc c.1 c.2
            else acc) (revealCell s y x)
      else revealCell s y x) := by
  rw [r_reveal.eq_2, if_neg (by simp [hdone]), if_neg hflag]

theorem r_reveal_frame : ∀ (fuel : Nat) (s : SBoard) (y x : Int),
    sameFrame s (r_reveal fuel s y x) := by
  intro fuel
  induction fuel with
  | zero => intro s y x; exact sameFrame_refl s
  | succ f ih =>
      intro s y x
      by_cases hdone : s.done = true
      · rw [r_reveal_of_done hdone]; exact sameFrame_refl s
      · have hd : s.done = false := by simpa using hdone
        by_cases hflag : geti s y x = FLAGGED
        · rw [r_reveal_of_flag f hd hflag]; exact sameFrame_refl s
        · rw [r_reveal_succ_eq f s y x hd hflag]
          split_ifs with hmine hwin hzero
          · exact revealCell_frame s y x
          · exact revealCell_frame s y x
          · refine foldl_pres_mem (sameFrame s) _ _ ?_ _ (revealCell_frame s y x)
            intro a c _ ha
            split
            · exact sameFrame_trans ha (ih a c.1 c.2)
            · exact ha
          · exact revealCell_frame s y x

theorem r_reveal_keeps_revealed : ∀ (fuel : Nat) (s : SBoard) (y x a b : Int),
    geti s a b = REVEAL → geti (r_reveal fuel s y x) a b = REVEAL := by
  intro fuel
  induction fuel with
  | zero => intro s y x a b h; exact h
  | succ f ih =>
      intro s y x a b h
      by_cases hdone : s.done = true
      · rw [r_reveal_of_done hdone]; exact h
      · have hd : s.done = false := by simpa using hdone
        by_cases hflag : geti s y x = FLAGGED
        · rw [r_reveal_of_flag f hd hflag]; exact h
        · rw [r_reveal_succ_eq f s y x hd hflag]
          split_ifs with hmine hwin hzero
          · rw [geti_mark]; exact geti_revealCell_keeps h
          · rw [geti_mark]; exact geti_revealCell_keeps h
          · refine foldl_pres_mem (fun t => geti t a b = REVEAL) _ _ ?_ _
              (geti_revealCell_keeps h)
            intro t c _ ht
            split
            · exact ih t c.1 c.2 a b ht
            · exact ht
          · exact geti_revealCell_keeps h

theorem r_reveal_keeps_flag : ∀ (fuel : Nat) (s : SBoard) (y x a b : Int),
    geti s a b = FLAGGED → geti (r_reveal fuel s y x) a b = FLAGGED := by
  intro fuel
  induction fuel with
  | zero => intro s y x a b h; exact h
  | succ f ih =>
      intro s y x a b h
      by_cases hdone : s.done = true
      · rw [r_reveal_of_done hdone]; exact h
      · have hd : s.done = false := by simpa using hdone
        by_cases hflag : geti s y x = FLAGGED
        · rw [r_reveal_of_flag f hd hflag]; exact h
        · rw [r_reveal_succ_eq f s y x hd hflag]
          split_ifs with hmine hwin hzero
          · rw [geti_mark]; exact geti_revealCell_keeps_flag h hflag
          · rw [geti_mark]; exact geti_revealCell_keeps_flag h hflag
          · refine foldl_pres_mem (fun t => geti t a b = FLAGGED) _ _ ?_ _
              (geti_revealCell_keeps_flag h hflag)
            intro t c _ ht
            split
            · exact ih t c.1 c.2 a b ht
            · exact ht
          · exact geti_revealCell_keeps_flag h hflag

theorem r_revealT_of_done {s : SBoard} (h : s.done = true) (fuel : Nat) (y x : Int) :
    r_revealT fuel s y x = (s, []) := by
  cases fuel with
  | zero => rfl
  | succ f =>
      unfold r_revealT
      rw [if_pos h]

theorem r_revealT_of_flag {s : SBoard} {y x : Int} (f : Nat) (hdone : s.done = false)
    (hflag : geti s y x = FLAGGED) : r_revealT (Nat.succ f) s y x = (s, []) := by
  unfold r_revealT
  rw [if_neg (by simp [hdone]), if_pos hflag]

theorem r_revealT_succ_eq (f : Nat) (s : SBoard) (y x : Int) (hdone : s.done = false)
    (hflag : geti s y x ≠ FLAGGED) :
    r_revealT (Nat.succ f) s y x =
      (if get (revealCell s y x) y x = MINE then
        ({ revealCell s y x with win := false, lose := true, done := true }, [(y, x)])
      else if (revealCell s y x).revealCount ≥ max_reveal (revealCell s y x) then
        ({ revealCell s y x with win := true, lose := false, done := true }, [(y, x)])
      else if get (revealCell s y x) y x = zeroC then
        (neighborOffsets y x).foldl
          (fun acc c =>
            if is_valid acc.1 c.1 c.2 ∧ ¬(c.1 = y ∧ c.2 = x) ∧ geti acc.1 c.1 c.2 ≠ REVEAL then
              ((r_revealT f acc.1 c.1 c.2).1, acc.2 ++ (r_revealT f acc.1 c.1 c.2).2)
            else acc) (revealCell s y x, [(y, x)])
      else (revealCell s y x, [(y, x)])) := by
  rw [r_revealT.eq_2, if_neg (by simp [hdone]), if_neg hflag]

theorem r_revealT_fst : ∀ (fuel : Nat) (s : SBoard) (y x : Int),
    (r_revealT fuel s y x).1 = r_reveal fuel s y x := by
  intro fuel
  induction fuel with
  | zero => intro s y x; rfl
  | succ f ih =>
      intro s y x
      by_cases hdone : s.done = true
      · rw [r_revealT_of_done hdone, r_reveal_of_done hdone]
      · have hd : s.done = false := by simpa using hdone
        by_cases hflag : geti s y x = FLAGGED
        · rw [r_revealT_of_flag f hd hflag, r_reveal_of_flag f hd hflag]
        · rw [r_revealT_succ_eq f s y x hd hflag, r_reveal_succ_eq f s y x hd hflag]
          split_ifs with hmine hwin hzero
          · rfl
          · rfl
          · have key : ∀ (l : List (Int × Int)) (p : SBoard × List (Int × Int)),
                (List.foldl (fun acc c =>
                    if is_valid acc.1 c.1 c.2 ∧ ¬(c.1 = y ∧ c.2 = x) ∧
                        geti acc.1 c.1 c.2 ≠ REVEAL then
                      ((r_revealT f acc.1 c.1 c.2).1, acc.2 ++ (r_revealT f acc.1 c.1 c.2).2)
                    else acc) p l).1 =
                  List.foldl (fun acc c =>
                    if is_valid acc c.1 c.2 ∧ ¬(c.1 = y ∧ c.2 = x) ∧
                        geti acc c.1 c.2 ≠ REVEAL then
                      r_reveal f acc c.1 c.2
                    else acc) p.1 l := by
              intro l
              induction l with
              | nil => intro p; rfl
              | cons c rest ihl =>
                  intro p
                  simp only [List.foldl_cons]
                  by_cases hg : is_valid p.1 c.1 c.2 ∧ ¬(c.1 = y ∧ c.2 = x) ∧
                      geti p.1 c.1 c.2 ≠ REVEAL
                  · rw [if_pos hg, if_pos hg, ihl, ih p.1 c.1 c.2]
                  · rw [if_neg hg, if_neg hg]
                    exact ihl p
            exact key (neighborOffsets y x) (revealCell s y x, [(y, x)])
          · rfl

theorem zero_cell_safe {s : SBoard} (hwf : wellFormedB s) {y x : Int} (hz : get s y x = zeroC) :
    ∀ c ∈ neighborOffsets y x, is_valid s c.1 c.2 = true → ¬(c.1 = y ∧ c.2 = x) →
      get s c.1 c.2 ≠ MINE := by
  have hv : is_valid s y x = true := valid_of_get_ne (by rw [hz]; decide)
  have hb : s.board y x = zeroC := by rw [← get_eq_of_valid hv]; exact hz
  have hmem : (y, x) ∈ coordList s.height.toNat s.width.toNat := by
    obtain ⟨h1, h2, h3, h4⟩ := (is_valid_iff s y x).mp hv
    exact mem_coordList.mpr ⟨h1, by omega, h3, by omega⟩
  have hcnt : count_neighbors s y x = 0 := by
    have h5 : s.board y x = zeroC + count_neighbors s y x :=
      hwf (y, x) hmem (by rw [hb]; decide)
    rw [hb] at h5
    unfold zeroC at h5
    omega
  exact no_mine_neighbor_of_count_zero hcnt

theorem mem_coordList_of_valid {s : SBoard} {y x : Int} (hv : is_valid s y x = true) :
    (y, x) ∈ coordList s.height.toNat s.width.toNat := by
  obtain ⟨h1, h2, h3, h4⟩ := (is_valid_iff s y x).mp hv
  exact mem_coordList.mpr ⟨h1, by omega, h3, by omega⟩

theorem unrevealed_revealCell {s : SBoard} {y x : Int} (hv : is_valid s y x = true)
    (hnr : geti s y x ≠ REVEAL) :
    unrevealed s = unrevealed (revealCell s y x) + 1 := by
  have hfr := revealCell_frame s y x
  unfold unrevealed
  rw [hfr.1, hfr.2.1]
  refine countP_flip_true (coordList s.height.toNat s.width.toNat)
    (fun c => decide (geti (revealCell s y x) c.1 c.2 ≠ REVEAL))
    (fun c => decide (geti s c.1 c.2 ≠ REVEAL))
    (y, x) (nodup_coordList _ _) (mem_coordList_of_valid hv) ?_ ?_ ?_
  · simp [geti_revealCell_self hv]
  · simp [hnr]
  · intro d hd hne
    obtain ⟨d1, d2⟩ := d
    have hne' : ¬(d1 = y ∧ d2 = x) := by rintro ⟨rfl, rfl⟩; exact hne rfl
    simp only [geti_revealCell_of_ne hne']

theorem unrevealed_pos {s : SBoard} {y x : Int} (hv : is_valid s y x = true)
    (hnr : geti s y x ≠ REVEAL) : 1 ≤ unrevealed s := by
  rw [unrevealed_revealCell hv hnr]
  omega

theorem unrevealed_r_reveal_le (fuel : Nat) (s : SBoard) (y x : Int) :
    unrevealed (r_reveal fuel s y x) ≤ unrevealed s := by
  have hfr := r_reveal_frame fuel s y x
  unfold unrevealed
  rw [hfr.1, hfr.2.1]
  apply countP_mono_mem
  intro c _ h
  rw [decide_eq_true_iff] at h ⊢
  intro hs
  exact h (r_reveal_keeps_revealed fuel s y x c.1 c.2 hs)

theorem foldl_r_reveal_stable (n : Nat)
    (IH : ∀ (t : SBoard) (c1 c2 : Int) (g1 g2 : Nat), unrevealed t ≤ n →
      is_valid t c1 c2 = true → geti t c1 c2 ≠ REVEAL → n < g1 → n < g2 →
      r_reveal g1 t c1 c2 = r_reveal g2 t c1 c2)
    (a b : Nat) (hna : n < a) (hnb : n < b) (y x : Int) :
    ∀ (l : List (Int × Int)) (t : SBoard), unrevealed t ≤ n →
      (List.foldl (fun acc c =>
          if is_valid acc c.1 c.2 ∧ ¬(c.1 = y ∧ c.2 = x) ∧ geti acc c.1 c.2 ≠ REVEAL then
            r_reveal a acc c.1 c.2
          else acc) t l =
        List.foldl (fun acc c =>
          if is_valid acc c.1 c.2 ∧ ¬(c.1 = y ∧ c.2 = x) ∧ geti acc c.1 c.2 ≠ REVEAL then
            r_reveal b acc c.1 c.2
          else acc) t l) ∧
      unrevealed (List.foldl (fun acc c =>
          if is_valid acc c.1 c.2 ∧ ¬(c.1 = y ∧ c.2 = x) ∧ geti acc c.1 c.2 ≠ REVEAL then
            r_reveal a acc c.1 c.2
          else acc) t l) ≤ n := by
  intro l
  induction l with
  | nil => intro t ht; exact ⟨rfl, ht⟩
  | cons c rest ihl =>
      intro t ht
      simp only [List.foldl_cons]
      by_cases hg : is_valid t c.1 c.2 ∧ ¬(c.1 = y ∧ c.2 = x) ∧ geti t c.1 c.2 ≠ REVEAL
      · rw [if_pos hg, if_pos hg]
        have heq : r_reveal a t c.1 c.2 = r_reveal b t c.1 c.2 :=
          IH t c.1 c.2 a b ht hg.1 hg.2.2 hna hnb
        rw [← heq]
        exact ihl (r_reveal a t c.1 c.2)
          (Nat.le_trans (unrevealed_r_reveal_le a t c.1 c.2) ht)
      · rw [if_neg hg, if_neg hg]
        exact ihl t ht

theorem r_reveal_fuel_stable_aux : ∀ (n : Nat) (s : SBoard) (y x : Int) (f1 f2 : Nat),
    unrevealed s ≤ n → is_valid s y x = true → geti s y x ≠ REVEAL →
    n < f1 → n < f2 → r_reveal f1 s y x = r_reveal f2 s y x := by
  intro n
  induction n using Nat.strong_induction_on with
  | _ n ih =>
    intro s y x f1 f2 hun hv hnr hf1 hf2
    obtain ⟨a, rfl⟩ : ∃ a, f1 = Nat.succ a := ⟨f1 - 1, by omega⟩
    obtain ⟨b, rfl⟩ : ∃ b, f2 = Nat.succ b := ⟨f2 - 1, by omega⟩
    by_cases hdone : s.done = true
    · rw [r_reveal_of_done hdone, r_reveal_of_done hdone]
    · have hd : s.done = false := by simpa using hdone
      by_cases hflag : geti s y x = FLAGGED
      · rw [r_reveal_of_flag a hd hflag, r_reveal_of_flag b hd hflag]
      · rw [r_reveal_succ_eq a s y x hd hflag, r_reveal_succ_eq b s y x hd hflag]
        split_ifs with hmine hwin hzero
        · rfl
        · rfl
        · have hpos : 1 ≤ unrevealed s := unrevealed_pos hv hnr
          have hrc : unrevealed s = unrevealed (revealCell s y x) + 1 :=
            unrevealed_revealCell hv hnr
          have hm : unrevealed (revealCell s y x) ≤ n - 1 := by omega
          exact (foldl_r_reveal_stable (n - 1)
            (fun t c1 c2 g1 g2 h1 h2 h3 h4 h5 => ih (n - 1) (by omega) t c1 c2 g1 g2 h1 h2 h3 h4 h5)
            a b (by omega) (by omega) y x (neighborOffsets y x) (revealCell s y x) hm).1
        · rfl

theorem r_reveal_fuel_stable (s : SBoard) (y x : Int) (f1 f2 : Nat)
    (hv : is_valid s y x = true) (hf1 : unrevealed s + 1 < f1) (hf2 : unrevealed s + 1 < f2) :
    r_reveal f1 s y x = r_reveal f2 s y x := by
  by_cases hnr : geti s y x = REVEAL
  · obtain ⟨a, rfl⟩ : ∃ a, f1 = Nat.succ a := ⟨f1 - 1, by omega⟩
    obtain ⟨b, rfl⟩ : ∃ b, f2 = Nat.succ b := ⟨f2 - 1, by omega⟩
    by_cases hdone : s.done = true
    · rw [r_reveal_of_done hdone, r_reveal_of_done hdone]
    · have hd : s.done = false := by simpa using hdone
      have hflag : geti s y x ≠ FLAGGED := by rw [hnr]; decide
      rw [r_reveal_succ_eq a s y x hd hflag, r_reveal_succ_eq b s y x hd hflag]
      have hrc : revealCell s y x = s := by
        unfold revealCell
        rw [if_neg (by simpa using hnr)]
      rw [hrc]
      split_ifs with hmine hwin hzero
      · rfl
      · rfl
      · exact (foldl_r_reveal_stable (unrevealed s)
          (fun t c1 c2 g1 g2 h1 h2 h3 h4 h5 =>
            r_reveal_fuel_stable_aux (unrevealed s) t c1 c2 g1 g2 h1 h2 h3 h4 h5)
          a b (by omega) (by omega) y x (neighborOffsets y x) s (Nat.le_refl _)).1
      · rfl
  · exact r_reveal_fuel_stable_aux (unrevealed s) s y x f1 f2 (Nat.le_refl _) hv hnr
      (by omega) (by omega)

theorem set_of_invalid {s : SBoard} {y x : Int} (v : Int) (h : is_valid s y x = false) :
    set s y x v = s := by
  unfold set
  rw [if_neg (by simp [h])]

theorem board_set_of_ne {s : SBoard} {y x a b : Int} (v : Int) (h : ¬(a = y ∧ b = x)) :
    (set s y x v).board a b = s.board a b := by
  unfold set
  split_ifs with hv
  · show (if a = y ∧ b = x then v else s.board a b) = s.board a b
    rw [if_neg h]
  · rfl

theorem board_set_self {s : SBoard} {y x : Int} (v : Int) (hv : is_valid s y x = true) :
    (set s y x v).board y x = v := by
  unfold set
  rw [if_pos hv]
  show (if y = y ∧ x = x then v else s.board y x) = v
  rw [if_pos ⟨rfl, rfl⟩]

theorem count_neighbors_congr_mines {s t : SBoard} (hh : t.height = s.height)
    (hw : t.width = s.width) (hm : ∀ a b : Int, get t a b = MINE ↔ get s a b = MINE)
    (y x : Int) : count_neighbors t y x = count_neighbors s y x := by
  unfold count_neighbors
  apply foldl_count_congr
  intro c _
  constructor
  · rintro ⟨h1, h2, h3⟩
    exact ⟨by rw [← is_valid_of_dims_eq hh hw]; exact h1, h2, (hm c.1 c.2).mp h3⟩
  · rintro ⟨h1, h2, h3⟩
    exact ⟨by rw [is_valid_of_dims_eq hh hw]; exact h1, h2, (hm c.1 c.2).mpr h3⟩

theorem r_revealT_spec : ∀ (fuel : Nat) (s : SBoard) (y x : Int), is_valid s y x = true →
    (r_revealT fuel s y x).2.Nodup ∧
    (∀ c ∈ (r_revealT fuel s y x).2, is_valid s c.1 c.2 = true) ∧
    (∀ c ∈ (r_revealT fuel s y x).2, geti (r_revealT fuel s y x).1 c.1 c.2 = REVEAL) ∧
    (∀ c ∈ (r_revealT fuel s y x).2, geti s c.1 c.2 ≠ REVEAL ∨ (c.1 = y ∧ c.2 = x)) := by
  intro fuel
  induction fuel with
  | zero =>
      intro s y x _
      refine ⟨?_, ?_, ?_, ?_⟩ <;> simp [r_revealT]
  | succ f ih =>
      intro s y x hv
      by_cases hdone : s.done = true
      · rw [r_revealT_of_done hdone]
        refine ⟨?_, ?_, ?_, ?_⟩ <;> simp
      · have hd : s.done = false := by simpa using hdone
        by_cases hflag : geti s y x = FLAGGED
        · rw [r_revealT_of_flag f hd hflag]
          refine ⟨?_, ?_, ?_, ?_⟩ <;> simp
        · rw [r_revealT_succ_eq f s y x hd hflag]
          have hself : geti (revealCell s y x) y x = REVEAL := geti_revealCell_self hv
          split_ifs with hmine hwin hzero
          · refine ⟨by simp, ?_, ?_, ?_⟩
            · intro c hc; simp at hc; subst hc; exact hv
            · intro c hc; simp at hc; subst hc; rw [geti_mark]; exact hself
            · intro c hc; simp at hc; subst hc; right; exact ⟨rfl, rfl⟩
          · refine ⟨by simp, ?_, ?_, ?_⟩
            · intro c hc; simp at hc; subst hc; exact hv
            · intro c hc; simp at hc; subst hc; rw [geti_mark]; exact hself
            · intro c hc; simp at hc; subst hc; right; exact ⟨rfl, rfl⟩
          · have main := foldl_pres_mem
              (fun p : SBoard × List (Int × Int) =>
                p.2.Nodup ∧
                (∀ c ∈ p.2, is_valid s c.1 c.2 = true) ∧
                (∀ c ∈ p.2, geti p.1 c.1 c.2 = REVEAL) ∧
                (∀ c ∈ p.2, geti s c.1 c.2 ≠ REVEAL ∨ (c.1 = y ∧ c.2 = x)) ∧
                (∀ a b : Int, geti s a b = REVEAL → geti p.1 a b = REVEAL) ∧
                sameFrame s p.1)
              (fun acc c =>
                if is_valid acc.1 c.1 c.2 ∧ ¬(c.1 = y ∧ c.2 = x) ∧
                    geti acc.1 c.1 c.2 ≠ REVEAL then
                  ((r_revealT f acc.1 c.1 c.2).1, acc.2 ++ (r_revealT f acc.1 c.1 c.2).2)
                else acc)
              (neighborOffsets y x) ?_ (revealCell s y x, [(y, x)]) ?_
            · exact ⟨main.1, main.2.1, main.2.2.1, main.2.2.2.1⟩
            · intro p c _ hQ
              obtain ⟨hnd, hval, hrev, hdis, hkeep, hfr⟩ := hQ
              dsimp only
              split_ifs with hg
              · obtain ⟨htnd, htval, htrev, htdis⟩ := ih p.1 c.1 c.2 hg.1
                have tfst : (r_revealT f p.1 c.1 c.2).1 = r_reveal f p.1 c.1 c.2 :=
                  r_revealT_fst f p.1 c.1 c.2
                have tnot : ∀ d ∈ (r_revealT f p.1 c.1 c.2).2,
                    geti p.1 d.1 d.2 ≠ REVEAL := by
                  intro d hd
                  rcases htdis d hd with h | h
                  · exact h
                  · intro hrevd
                    exact hg.2.2 (by rw [← h.1, ← h.2]; exact hrevd)
                refine ⟨?_, ?_, ?_, ?_, ?_, ?_⟩
                · exact List.Nodup.append hnd htnd
                    (fun d hdp hdt => tnot d hdt (hrev d hdp))
                · intro d hd
                  rcases List.mem_append.mp hd with h | h
                  · exact hval d h
                  · rw [← is_valid_of_sameFrame hfr]; exact htval d h
                · intro d hd
                  rcases List.mem_append.mp hd with h | h
                  · rw [tfst]
                    exact r_reveal_keeps_revealed f p.1 c.1 c.2 d.1 d.2 (hrev d h)
                  · exact htrev d h
                · intro d hd
                  rcases List.mem_append.mp hd with h | h
                  · exact hdis d h
                  · left
                    intro hds
                    exact tnot d h (hkeep d.1 d.2 hds)
                · intro a b hab
                  rw [tfst]
                  exact r_reveal_keeps_revealed f p.1 c.1 c.2 a b (hkeep a b hab)
                · refine sameFrame_trans hfr ?_
                  rw [tfst]
                  exact r_reveal_frame f p.1 c.1 c.2
              · exact ⟨hnd, hval, hrev, hdis, hkeep, hfr⟩
            · refine ⟨by simp, ?_, ?_, ?_, ?_, revealCell_frame s y x⟩
              · intro c hc; simp at hc; subst hc; exact hv
              · intro c hc; simp at hc; subst hc; exact hself
              · intro c hc; simp at hc; subst hc; right; exact ⟨rfl, rfl⟩
              · intro a b hab; exact geti_revealCell_keeps hab
          · refine ⟨by simp, ?_, ?_, ?_⟩
            · intro c hc; simp at hc; subst hc; exact hv
            · intro c hc; simp at hc; subst hc; exact hself
            · intro c hc; simp at hc; subst hc; right; exact ⟨rfl, rfl⟩

theorem trace_length_le (fuel : Nat) (s : SBoard) (y x : Int) (hv : is_valid s y x = true) :
    (r_revealT fuel s y x).2.length ≤ s.height.toNat * s.width.toNat := by
  have hs := r_revealT_spec fuel s y x hv
  have hsub : (r_revealT fuel s y x).2 ⊆ coordList s.height.toNat s.width.toNat :=
    fun c hc => mem_coordList_of_valid (hs.2.1 c hc)
  calc (r_revealT fuel s y x).2.length
      ≤ (coordList s.height.toNat s.width.toNat).length :=
        (hs.1.subperm hsub).length_le
    _ = s.height.toNat * s.width.toNat := length_coordList _ _

theorem valid_of_mem_coordList {s : SBoard} {c : Int × Int}
    (hc : c ∈ coordList s.height.toNat s.width.toNat) : is_valid s c.1 c.2 = true := by
  rw [mem_coordList] at hc
  rw [is_valid_iff]
  omega

theorem fillCounts_frame (s : SBoard) :
    (fillCounts s).input_board = s.input_board ∧ (fillCounts s).curY = s.curY ∧
    (fillCounts s).curX = s.curX ∧ (fillCounts s).done = s.done ∧
    (fillCounts s).win = s.win ∧ (fillCounts s).lose = s.lose ∧
    (fillCounts s).revealCount = s.revealCount ∧ (fillCounts s).flagCount = s.flagCount ∧
    (fillCounts s).height = s.height ∧ (fillCounts s).width = s.width ∧
    (fillCounts s).mines = s.mines := by
  unfold fillCounts
  refine foldl_pres_mem (fun t => t.input_board = s.input_board ∧ t.curY = s.curY ∧
    t.curX = s.curX ∧ t.done = s.done ∧ t.win = s.win ∧ t.lose = s.lose ∧
    t.revealCount = s.revealCount ∧ t.flagCount = s.flagCount ∧ t.height = s.height ∧
    t.width = s.width ∧ t.mines = s.mines) _ _ ?_ s
    ⟨rfl, rfl, rfl, rfl, rfl, rfl, rfl, rfl, rfl, rfl, rfl⟩
  intro t c _ ht
  obtain ⟨h1, h2, h3, h4, h5, h6, h7, h8, h9, h10, h11⟩ := ht
  split_ifs with hg
  · exact ⟨by rw [set_input_board]; exact h1, by rw [set_curY]; exact h2,
      by rw [set_curX]; exact h3, by rw [set_done]; exact h4, by rw [set_win]; exact h5,
      by rw [set_lose]; exact h6, by rw [set_revealCount]; exact h7,
      by rw [set_flagCount]; exact h8, by rw [set_height]; exact h9,
      by rw [set_width]; exact h10, by rw [set_mines]; exact h11⟩
  · exact ⟨h1, h2, h3, h4, h5, h6, h7, h8, h9, h10, h11⟩

theorem fillStep_facts (s0 acc : SBoard) (c : Int × Int)
    (hh : acc.height = s0.height) (hw : acc.width = s0.width)
    (hm : ∀ a b : Int, get acc a b = MINE ↔ get s0 a b = MINE) :
    (if get acc c.1 c.2 ≠ MINE then
        set acc c.1 c.2 (count_neighbors acc c.1 c.2 + zeroC) else acc).height = s0.height ∧
    (if get acc c.1 c.2 ≠ MINE then
        set acc c.1 c.2 (count_neighbors acc c.1 c.2 + zeroC) else acc).width = s0.width ∧
    (∀ a b : Int, get (if get acc c.1 c.2 ≠ MINE then
        set acc c.1 c.2 (count_neighbors acc c.1 c.2 + zeroC) else acc) a b = MINE ↔
        get s0 a b = MINE) ∧
    (∀ a b : Int, acc.board a b = zeroC + count_neighbors acc a b →
      (if get acc c.1 c.2 ≠ MINE then
          set acc c.1 c.2 (count_neighbors acc c.1 c.2 + zeroC) else acc).board a b =
        zeroC + count_neighbors (if get acc c.1 c.2 ≠ MINE then
          set acc c.1 c.2 (count_neighbors acc c.1 c.2 + zeroC) else acc) a b) ∧
    (is_valid acc c.1 c.2 = true → get acc c.1 c.2 ≠ MINE →
      (if get acc c.1 c.2 ≠ MINE then
          set acc c.1 c.2 (count_neighbors acc c.1 c.2 + zeroC) else acc).board c.1 c.2 =
        zeroC + count_neighbors (if get acc c.1 c.2 ≠ MINE then
          set acc c.1 c.2 (count_neighbors acc c.1 c.2 + zeroC) else acc) c.1 c.2) := by
  by_cases hgm : get acc c.1 c.2 ≠ MINE
  · rw [if_pos hgm]
    by_cases hvc : is_valid acc c.1 c.2 = true
    · have hcnt0 := count_neighbors_nonneg acc c.1 c.2
      have hcnt8 := count_neighbors_le_8 acc c.1 c.2
      have hmine1 : ∀ a b : Int,
          get (set acc c.1 c.2 (count_neighbors acc c.1 c.2 + zeroC)) a b = MINE ↔
          get acc a b = MINE := by
        intro a b
        by_cases hab : a = c.1 ∧ b = c.2
        · obtain ⟨rfl, rfl⟩ := hab
          rw [get_set_self _ hvc]
          unfold MINE zeroC at *
          constructor
          · intro hx; omega
          · intro hx; exact absurd hx hgm
        · rw [get_set_of_ne _ hab]
      have hcnt_eq : ∀ a b : Int,
          count_neighbors (set acc c.1 c.2 (count_neighbors acc c.1 c.2 + zeroC)) a b =
          count_neighbors acc a b := by
        intro a b
        exact count_neighbors_congr_mines (set_height _ _ _ _) (set_width _ _ _ _) hmine1 a b
      refine ⟨by rw [set_height]; exact hh, by rw [set_width]; exact hw, ?_, ?_, ?_⟩
      · intro a b
        rw [hmine1 a b]
        exact hm a b
      · intro a b hgood
        by_cases hab : a = c.1 ∧ b = c.2
        · obtain ⟨rfl, rfl⟩ := hab
          rw [board_set_self _ hvc, hcnt_eq]
          omega
        · rw [board_set_of_ne _ hab, hcnt_eq]
          exact hgood
      · intro _ _
        rw [board_set_self _ hvc, hcnt_eq]
        omega
    · have hvc' : is_valid acc c.1 c.2 = false := by simpa using hvc
      rw [set_of_invalid _ hvc']
      exact ⟨hh, hw, hm, fun a b hgood => hgood, fun hvv _ => absurd hvv (by simp [hvc'])⟩
  · rw [if_neg hgm]
    exact ⟨hh, hw, hm, fun a b hgood => hgood, fun _ hgm2 => absurd hgm2 hgm⟩

theorem fillCounts_fold (s0 : SBoard) : ∀ (l : List (Int × Int)) (acc : SBoard),
    acc.height = s0.height → acc.width = s0.width →
    (∀ a b : Int, get acc a b = MINE ↔ get s0 a b = MINE) →
    (List.foldl (fun acc c => if get acc c.1 c.2 ≠ MINE then
        set acc c.1 c.2 (count_neighbors acc c.1 c.2 + zeroC) else acc) acc l).height =
      s0.height ∧
    (List.foldl (fun acc c => if get acc c.1 c.2 ≠ MINE then
        set acc c.1 c.2 (count_neighbors acc c.1 c.2 + zeroC) else acc) acc l).width =
      s0.width ∧
    (∀ a b : Int, get (List.foldl (fun acc c => if get acc c.1 c.2 ≠ MINE then
        set acc c.1 c.2 (count_neighbors acc c.1 c.2 + zeroC) else acc) acc l) a b = MINE ↔
      get s0 a b = MINE) ∧
    (∀ a b : Int, acc.board a b = zeroC + count_neighbors acc a b →
      (List.foldl (fun acc c => if get acc c.1 c.2 ≠ MINE then
          set acc c.1 c.2 (count_neighbors acc c.1 c.2 + zeroC) else acc) acc l).board a b =
        zeroC + count_neighbors (List.foldl (fun acc c => if get acc c.1 c.2 ≠ MINE then
          set acc c.1 c.2 (count_neighbors acc c.1 c.2 + zeroC) else acc) acc l) a b) ∧
    (∀ c ∈ l, is_valid acc c.1 c.2 = true → get acc c.1 c.2 ≠ MINE →
      (List.foldl (fun acc c => if get acc c.1 c.2 ≠ MINE then
          set acc c.1 c.2 (count_neighbors acc c.1 c.2 + zeroC) else acc) acc l).board c.1 c.2 =
        zeroC + count_neighbors (List.foldl (fun acc c => if get acc c.1 c.2 ≠ MINE then
          set acc c.1 c.2 (count_neighbors acc c.1 c.2 + zeroC) else acc) acc l) c.1 c.2) := by
  intro l
  induction l with
  | nil =>
      intro acc hh hw hm
      exact ⟨hh, hw, hm, fun a b hgood => hgood, fun c hc => absurd hc (by simp)⟩
  | cons c rest ihl =>
      intro acc hh hw hm
      simp only [List.foldl_cons]
      have hstep := fillStep_facts s0 acc c hh hw hm
      obtain ⟨sh, sw, sm, sgood, sproc⟩ := hstep
      have hrec := ihl _ sh sw sm
      obtain ⟨rh, rw', rm, rgood, rproc⟩ := hrec
      refine ⟨rh, rw', rm, ?_, ?_⟩
      · intro a b hgood
        exact rgood a b (sgood a b hgood)
      · intro d hd hdv hdm
        rcases List.mem_cons.mp hd with rfl | hdrest
        · exact rgood d.1 d.2 (sproc hdv hdm)
        · refine rproc d hdrest ?_ ?_
          · rw [is_valid_of_dims_eq (sh.trans hh.symm) (sw.trans hw.symm)]
            exact hdv
          · intro hdm2
            exact hdm ((hm d.1 d.2).mpr ((sm d.1 d.2).mp hdm2))

theorem fillCounts_spec (s : SBoard) :
    (fillCounts s).height = s.height ∧ (fillCounts s).width = s.width ∧
    (∀ a b : Int, get (fillCounts s) a b = MINE ↔ get s a b = MINE) ∧
    wellFormedB (fillCounts s) ∧
    countMines (fillCounts s) = countMines s := by
  unfold fillCounts countMines wellFormedB
  have main := fillCounts_fold s (coordList s.height.toNat s.width.toNat) s rfl rfl
    (fun a b => Iff.rfl)
  obtain ⟨mh, mw, mm, _, mproc⟩ := main
  refine ⟨mh, mw, mm, ?_, ?_⟩
  · intro c hc hm
    rw [mh, mw] at hc
    have hcv : is_valid s c.1 c.2 = true := valid_of_mem_coordList hc
    have hcv' : is_valid (List.foldl (fun acc c => if get acc c.1 c.2 ≠ MINE then
        set acc c.1 c.2 (count_neighbors acc c.1 c.2 + zeroC) else acc) s
        (coordList s.height.toNat s.width.toNat)) c.1 c.2 = true := by
      rw [is_valid_of_dims_eq mh mw]
      exact hcv
    refine mproc c hc hcv ?_
    intro hsm
    apply hm
    have h2 := (mm c.1 c.2).mpr hsm
    rw [get_eq_of_valid hcv'] at h2
    exact h2
  · rw [mh, mw]
    apply countP_congr_mem
    intro c _
    exact decide_eq_decide.mpr (mm c.1 c.2)

theorem countMines_set_mine {s : SBoard} {y x : Int} (h0 : get s y x = 0) :
    countMines (set s y x MINE) = countMines s + 1 := by
  have hv : is_valid s y x = true := valid_of_get_ne (by rw [h0]; decide)
  unfold countMines
  rw [set_height, set_width]
  refine countP_flip_true _ (fun c => decide (get s c.1 c.2 = MINE))
    (fun c => decide (get (set s y x MINE) c.1 c.2 = MINE)) (y, x)
    (nodup_coordList _ _) (mem_coordList_of_valid hv) ?_ ?_ ?_
  · have h1 : get s (y, x).1 (y, x).2 = 0 := h0
    simp only [h1]
    decide
  · have h1 : get (set s y x MINE) (y, x).1 (y, x).2 = MINE := get_set_self _ hv
    simp only [h1]
    decide
  · intro d hd hne
    obtain ⟨d1, d2⟩ := d
    have hne' : ¬(d1 = y ∧ d2 = x) := by rintro ⟨rfl, rfl⟩; exact hne rfl
    simp only [get_set_of_ne _ hne']

theorem countMines_le_cells (s : SBoard) :
    countMines s ≤ s.height.toNat * s.width.toNat := by
  unfold countMines
  calc (coordList s.height.toNat s.width.toNat).countP _
      ≤ (coordList s.height.toNat s.width.toNat).length := List.countP_le_length _
    _ = s.height.toNat * s.width.toNat := length_coordList _ _

theorem placeMines_zero (rng : Nat → Nat) (k : Nat) (s : SBoard) (m : Int) :
    placeMines 0 rng k s m = if m < s.mines then none else some (s, k) := rfl

theorem placeMines_succ (f : Nat) (rng : Nat → Nat) (k : Nat) (s : SBoard) (m : Int) :
    placeMines (Nat.succ f) rng k s m =
      if m < s.mines then
        (if get s (random rng k 0 s.height) (random rng (k + 1) 0 s.width) = 0 then
          placeMines f rng (k + 2)
            (set s (random rng k 0 s.height) (random rng (k + 1) 0 s.width) MINE) (m + 1)
        else placeMines f rng (k + 2) s m)
      else some (s, k) := rfl

theorem firstLoop_zero (rng : Nat → Nat) (k placeFuel : Nat) (s : SBoard) :
    firstLoop 0 rng k placeFuel s =
      if s.revealCount = 0 ∧ get s s.curY s.curX = MINE then none else some (s, k) := rfl

theorem firstLoop_succ (f : Nat) (rng : Nat → Nat) (k placeFuel : Nat) (s : SBoard) :
    firstLoop (Nat.succ f) rng k placeFuel s =
      if s.revealCount = 0 ∧ get s s.curY s.curX = MINE then
        (match init placeFuel rng k s with
        | none => none
        | some (s1, k1) => firstLoop f rng k1 placeFuel s1)
      else some (s, k) := rfl

theorem placeMines_spec : ∀ (fuel : Nat) (rng : Nat → Nat) (k : Nat) (s : SBoard) (m : Int),
    0 ≤ m → (countMines s : Int) = m → m ≤ s.mines →
    ∀ (s' : SBoard) (k' : Nat), placeMines fuel rng k s m = some (s', k') →
    (countMines s' : Int) = s'.mines ∧
    s'.height = s.height ∧ s'.width = s.width ∧ s'.mines = s.mines ∧
    s'.input_board = s.input_board ∧ s'.curY = s.curY ∧ s'.curX = s.curX ∧
    s'.done = s.done ∧ s'.win = s.win ∧ s'.lose = s.lose ∧
    s'.revealCount = s.revealCount ∧ s'.flagCount = s.flagCount := by
  intro fuel
  induction fuel with
  | zero =>
      intro rng k s m hm0 hminv hmle s' k' hres
      rw [placeMines_zero] at hres
      by_cases hc : m < s.mines
      · rw [if_pos hc] at hres
        cases hres
      · rw [if_neg hc] at hres
        simp only [Option.some.injEq, Prod.mk.injEq] at hres
        obtain ⟨rfl, rfl⟩ := hres
        have hmeq : m = s.mines := le_antisymm hmle (not_lt.mp hc)
        exact ⟨by rw [hminv, hmeq], rfl, rfl, rfl, rfl, rfl, rfl, rfl, rfl, rfl, rfl, rfl⟩
  | succ f ihf =>
      intro rng k s m hm0 hminv hmle s' k' hres
      rw [placeMines_succ] at hres
      by_cases hc : m < s.mines
      · rw [if_pos hc] at hres
        by_cases hget : get s (random rng k 0 s.height) (random rng (k + 1) 0 s.width) = 0
        · rw [if_pos hget] at hres
          have hres2 := ihf rng (k + 2)
            (set s (random rng k 0 s.height) (random rng (k + 1) 0 s.width) MINE) (m + 1)
            (by omega)
            (by rw [countMines_set_mine hget]; push_cast; omega)
            (by rw [set_mines]; omega) s' k' hres
          obtain ⟨c1, c2, c3, c4, c5, c6, c7, c8, c9, c10, c11, c12⟩ := hres2
          exact ⟨c1, c2.trans (set_height _ _ _ _), c3.trans (set_width _ _ _ _),
            c4.trans (set_mines _ _ _ _), c5.trans (set_input_board _ _ _ _),
            c6.trans (set_curY _ _ _ _), c7.trans (set_curX _ _ _ _),
            c8.trans (set_done _ _ _ _), c9.trans (set_win _ _ _ _),
            c10.trans (set_lose _ _ _ _), c11.trans (set_revealCount _ _ _ _),
            c12.trans (set_flagCount _ _ _ _)⟩
        · rw [if_neg hget] at hres
          exact ihf rng (k + 2) s m hm0 hminv hmle s' k' hres
      · rw [if_neg hc] at hres
        simp only [Option.some.injEq, Prod.mk.injEq] at hres
        obtain ⟨rfl, rfl⟩ := hres
        have hmeq : m = s.mines := le_antisymm hmle (not_lt.mp hc)
        exact ⟨by rw [hminv, hmeq], rfl, rfl, rfl, rfl, rfl, rfl, rfl, rfl, rfl, rfl, rfl⟩

theorem placeMines_hang : ∀ (fuel : Nat) (rng : Nat → Nat) (k : Nat) (s : SBoard) (m : Int),
    (countMines s : Int) = m → 0 ≤ s.height → 0 ≤ s.width →
    s.height * s.width < s.mines →
    placeMines fuel rng k s m = none := by
  intro fuel
  induction fuel with
  | zero =>
      intro rng k s m hminv hh hw hmul
      have hcast : (s.height.toNat * s.width.toNat : Int) = s.height * s.width := by
        rw [Int.toNat_of_nonneg hh, Int.toNat_of_nonneg hw]
      have h1 : (countMines s : Int) ≤ (s.height.toNat * s.width.toNat : Int) := by
        exact_mod_cast countMines_le_cells s
      have hlt : m < s.mines := by
        rw [hcast] at h1
        calc m = (countMines s : Int) := hminv.symm
          _ ≤ s.height * s.width := h1
          _ < s.mines := hmul
      rw [placeMines_zero, if_pos hlt]
  | succ f ihf =>
      intro rng k s m hminv hh hw hmul
      have hcast : (s.height.toNat * s.width.toNat : Int) = s.height * s.width := by
        rw [Int.toNat_of_nonneg hh, Int.toNat_of_nonneg hw]
      have h1 : (countMines s : Int) ≤ (s.height.toNat * s.width.toNat : Int) := by
        exact_mod_cast countMines_le_cells s
      have hlt : m < s.mines := by
        rw [hcast] at h1
        calc m = (countMines s : Int) := hminv.symm
          _ ≤ s.height * s.width := h1
          _ < s.mines := hmul
      rw [placeMines_succ, if_pos hlt]
      by_cases hget : get s (random rng k 0 s.height) (random rng (k + 1) 0 s.width) = 0
      · rw [if_pos hget]
        refine ihf rng (k + 2) _ (m + 1) ?_ ?_ ?_ ?_
        · rw [countMines_set_mine hget]; push_cast; omega
        · rw [set_height]; exact hh
        · rw [set_width]; exact hw
        · rw [set_height, set_width, set_mines]; exact hmul
      · rw [if_neg hget]
        exact ihf rng (k + 2) s m hminv hh hw hmul

theorem countMines_initBoard (s : SBoard) : countMines (initBoard s) = 0 := by
  unfold countMines
  refine List.countP_eq_zero.mpr ?_
  intro c _
  simp only [decide_eq_true_eq]
  unfold get
  by_cases hvx : is_valid (initBoard s) c.1 c.2 = true
  · rw [if_pos hvx]
    show ¬(BLANK = MINE)
    decide
  · rw [if_neg hvx]
    show ¬(ERROR = MINE)
    decide

theorem init_spec (fuel : Nat) (rng : Nat → Nat) (k : Nat) (s s' : SBoard) (k' : Nat)
    (hmines0 : 0 ≤ s.mines) (hres : init fuel rng k s = some (s', k')) :
    wellFormedB s' ∧ (countMines s' : Int) = s.mines ∧
    s'.height = s.height ∧ s'.width = s.width ∧ s'.mines = s.mines ∧
    s'.curY = s.curY ∧ s'.curX = s.curX ∧
    s'.done = false ∧ s'.win = false ∧ s'.lose = false ∧
    s'.revealCount = 0 ∧ s'.flagCount = 0 := by
  unfold init at hres
  cases hpm : placeMines fuel rng k (initBoard s) 0 with
  | none => rw [hpm] at hres; cases hres
  | some v =>
      obtain ⟨s1, k1⟩ := v
      rw [hpm] at hres
      simp only [Option.some.injEq, Prod.mk.injEq] at hres
      obtain ⟨rfl, rfl⟩ := hres.symm
      have hplace := placeMines_spec fuel rng k (initBoard s) 0 (le_refl 0)
        (by rw [countMines_initBoard]; rfl) hmines0 s1 k1 hpm
      obtain ⟨p1, p2, p3, p4, p5, p6, p7, p8, p9, p10, p11, p12⟩ := hplace
      have hfc := fillCounts_spec s1
      obtain ⟨f1, f2, f3, f4, f5⟩ := hfc
      have hff := fillCounts_frame s1
      obtain ⟨g1, g2, g3, g4, g5, g6, g7, g8, _, _, _⟩ := hff
      refine ⟨f4, ?_, f1.trans p2, f2.trans p3, ?_, ?_, ?_, ?_, ?_, ?_, ?_, ?_⟩
      · rw [f5, p1, p4]
        rfl
      · have hmfc := (fillCounts_frame s1).2.2.2.2.2.2.2.2.2.2
        rw [hmfc, p4]
        rfl
      · exact g2.trans p6
      · exact g3.trans p7
      · exact g4.trans p8
      · exact g5.trans p9
      · exact g6.trans p10
      · exact g7.trans p11
      · exact g8.trans p12

theorem firstLoop_spec : ∀ (fuel : Nat) (rng : Nat → Nat) (k placeFuel : Nat) (s : SBoard),
    s.revealCount = 0 → wellFormedB s → s.lose = false →
    is_valid s s.curY s.curX = true → 0 ≤ s.mines →
    ∀ (s1 : SBoard) (k1 : Nat), firstLoop fuel rng k placeFuel s = some (s1, k1) →
    wellFormedB s1 ∧ s1.lose = false ∧ get s1 s1.curY s1.curX ≠ MINE ∧
    is_valid s1 s1.curY s1.curX = true := by
  intro fuel
  induction fuel with
  | zero =>
      intro rng k placeFuel s hrc hwf hlose hcur hm s1 k1 hres
      rw [firstLoop_zero] at hres
      by_cases hcond : s.revealCount = 0 ∧ get s s.curY s.curX = MINE
      · rw [if_pos hcond] at hres
        cases hres
      · rw [if_neg hcond] at hres
        simp only [Option.some.injEq, Prod.mk.injEq] at hres
        obtain ⟨rfl, rfl⟩ := hres.symm
        have hnm : get s s.curY s.curX ≠ MINE := fun hmm => hcond ⟨hrc, hmm⟩
        exact ⟨hwf, hlose, hnm, hcur⟩
  | succ f ihf =>
      intro rng k placeFuel s hrc hwf hlose hcur hm s1 k1 hres
      rw [firstLoop_succ] at hres
      by_cases hcond : s.revealCount = 0 ∧ get s s.curY s.curX = MINE
      · rw [if_pos hcond] at hres
        cases hinit : init placeFuel rng k s with
        | none => rw [hinit] at hres; cases hres
        | some v =>
            obtain ⟨si, ki⟩ := v
            rw [hinit] at hres
            have hspec := init_spec placeFuel rng k s si ki hm hinit
            obtain ⟨i1, i2, i3, i4, i5, i6, i7, i8, i9, i10, i11, i12⟩ := hspec
            refine ihf rng ki placeFuel si i11 i1 i10 ?_ (by rw [i5]; exact hm) s1 k1 hres
            rw [i6, i7, is_valid_of_dims_eq i3 i4]
            exact hcur
      · rw [if_neg hcond] at hres
        simp only [Option.some.injEq, Prod.mk.injEq] at hres
        obtain ⟨rfl, rfl⟩ := hres.symm
        have hnm : get s s.curY s.curX ≠ MINE := fun hmm => hcond ⟨hrc, hmm⟩
        exact ⟨hwf, hlose, hnm, hcur⟩

theorem r_reveal_no_lose : ∀ (fuel : Nat) (s : SBoard) (y x : Int), wellFormedB s →
    s.lose = false → get s y x ≠ MINE → (r_reveal fuel s y x).lose = false := by
  intro fuel
  induction fuel with
  | zero => intro s y x _ hl _; exact hl
  | succ f ih =>
      intro s y x hwf hl hm
      by_cases hdone : s.done = true
      · rw [r_reveal_of_done hdone]; exact hl
      · have hd : s.done = false := by simpa using hdone
        by_cases hflag : geti s y x = FLAGGED
        · rw [r_reveal_of_flag f hd hflag]; exact hl
        · rw [r_reveal_succ_eq f s y x hd hflag]
          have hframe := revealCell_frame s y x
          split_ifs with hmine hwin hzero
          · exact absurd (by rw [get_of_sameFrame hframe] at hmine; exact hmine) hm
          · rfl
          · have h0 : (revealCell s y x).lose = false := by rw [revealCell_lose]; exact hl
            have hz : get s y x = zeroC := by
              rw [get_of_sameFrame hframe] at hzero; exact hzero
            refine (foldl_pres_mem (fun t => t.lose = false ∧ sameFrame s t) _
              (neighborOffsets y x) ?_ (revealCell s y x) ⟨h0, hframe⟩).1
            intro t c hcmem hP
            obtain ⟨htl, htf⟩ := hP
            split_ifs with hg
            · refine ⟨ih t c.1 c.2 (wellFormedB_of_sameFrame htf hwf) htl ?_,
                sameFrame_trans htf (r_reveal_frame f t c.1 c.2)⟩
              rw [get_of_sameFrame htf]
              exact zero_cell_safe hwf hz c hcmem
                (by rw [← is_valid_of_sameFrame htf]; exact hg.1) hg.2.1
            · exact ⟨htl, htf⟩
          · rw [revealCell_lose]; exact hl

theorem move_cur_eq (s : SBoard) (dy dx : Int) :
    move_cur s dy dx =
      if is_valid s (wrap8 (dy + s.curY)) (wrap8 (dx + s.curX)) then
        { s with curY := wrap8 (dy + s.curY), curX := wrap8 (dx + s.curX) }
      else s := rfl

theorem firstLoop_of_not {s : SBoard} (fuel : Nat) (rng : Nat → Nat) (k placeFuel : Nat)
    (h : ¬(s.revealCount = 0 ∧ get s s.curY s.curX = MINE)) :
    firstLoop fuel rng k placeFuel s = some (s, k) := by
  cases fuel with
  | zero => rw [firstLoop_zero, if_neg h]
  | succ f => rw [firstLoop_succ, if_neg h]

theorem r_reveal_of_flag_any {s : SBoard} {y x : Int} (fuel : Nat) (hd : s.done = false)
    (hflag : geti s y x = FLAGGED) : r_reveal fuel s y x = s := by
  cases fuel with
  | zero => rfl
  | succ f => exact r_reveal_of_flag f hd hflag

theorem geti_fc_update (t : SBoard) (n a b : Int) :
    geti { t with flagCount := n } a b = geti t a b := rfl

/-- Claim C1: if `reveal` is called as the very first reveal of the game
(`revealedCount = 0`) on a well-formed board with an in-range cursor, then
whatever the random stream and however often the first-move safety loop
re-runs `init`, the resulting outcome is never Lost.  (The `some` hypothesis
says the two `while` loops of the C code finished within the given fuel;
the conclusion holds for every fuel for which they do.) -/
theorem first_reveal_never_lose (loopFuel placeFuel k : Nat) (rng : Nat → Nat)
    (s s' : SBoard) (hwf : wellFormedB s) (hrc : s.revealCount = 0)
    (hlose : s.lose = false) (hcur : is_valid s s.curY s.curX = true)
    (hm : 0 ≤ s.mines) (hres : reveal loopFuel placeFuel rng k s = some s') :
    s'.lose = false := by
  unfold reveal at hres
  cases hfl : firstLoop loopFuel rng k placeFuel s with
  | none => rw [hfl] at hres; cases hres
  | some v =>
      obtain ⟨s1, k1⟩ := v
      rw [hfl] at hres
      simp only [Option.some.injEq] at hres
      obtain ⟨w1, w2, w3, w4⟩ :=
        firstLoop_spec loopFuel rng k placeFuel s hrc hwf hlose hcur hm s1 k1 hfl
      rw [← hres]
      exact r_reveal_no_lose _ s1 s1.curY s1.curX w1 w2 w3

/-- Witness for C1: a concrete 1 by 1 zero-mine board; its first reveal
completes and does not lose. -/
theorem first_reveal_never_lose_witness :
    (reveal 0 0 rng0 0 sC1).getD sC1 = sC1r ∧ sC1r.lose = false :=
  ⟨rfl, first_reveal_never_lose 0 0 0 rng0 sC1 sC1r (by decide) (by decide)
    (by decide) (by decide) (by decide) rfl⟩

/-- Claim C2: whenever `init` completes on a board whose dimensions and mine
count are in the valid ranges, exactly `mineCount` cells of the mine layer are
mines, and every non-mine in-range cell stores the character `'0'` plus the
exact number of in-bounds Moore-neighbourhood cells that are mines, a count
between 0 and 8. -/
theorem init_mines_and_counts (fuel : Nat) (rng : Nat → Nat) (k : Nat) (s s' : SBoard)
    (k' : Nat) (h1 : 1 ≤ s.height) (h2 : s.height ≤ 127) (h3 : 1 ≤ s.width)
    (h4 : s.width ≤ 127) (h5 : 0 ≤ s.mines) (h6 : s.mines < s.height * s.width)
    (hres : init fuel rng k s = some (s', k')) :
    (countMines s' : Int) = s.mines ∧
    (∀ y x : Int, is_valid s' y x = true → get s' y x ≠ MINE →
      get s' y x = zeroC + count_neighbors s' y x ∧
      0 ≤ count_neighbors s' y x ∧ count_neighbors s' y x ≤ 8) := by
  obtain ⟨i1, i2, _⟩ := init_spec fuel rng k s s' k' h5 hres
  refine ⟨i2, ?_⟩
  intro y x hv hm
  have hmem : (y, x) ∈ coordList s'.height.toNat s'.width.toNat :=
    mem_coordList_of_valid hv
  have hb : s'.board y x = get s' y x := (get_eq_of_valid hv).symm
  refine ⟨?_, count_neighbors_nonneg s' y x, count_neighbors_le_8 s' y x⟩
  have := i1 (y, x) hmem (by rw [hb]; exact hm)
  rw [hb] at this
  exact this

/-- Witness for C2: `init` on a 2 by 2 board with one mine, with the
constant-zero stream; the mine count is exact and cell (0,1) holds `'1'`. -/
theorem init_mines_and_counts_witness :
    (countMines sC2r : Int) = 1 ∧ get sC2r 0 1 = zeroC + count_neighbors sC2r 0 1 := by
  have happ := init_mines_and_counts 3 rng0 0 (SBoard.mk0 2 2 1) sC2r 2
    (by decide) (by decide) (by decide) (by decide) (by decide) (by decide) rfl
  exact ⟨happ.1, (happ.2 0 1 (by decide) (by decide)).1⟩

/-- Claim C5 (code bug demonstration): with mineCount = 2 on a 1 by 1 grid
(mine count exceeding the cell count), the mine-placement loop of `init`
never finishes, whatever fuel it is given and whatever the random stream:
the C code hangs instead of failing fast. -/
theorem mine_placement_never_terminates :
    ∀ (fuel k : Nat) (rng : Nat → Nat), init fuel rng k (SBoard.mk0 1 1 2) = none := by
  intro fuel k rng
  unfold init
  rw [placeMines_hang fuel rng k (initBoard (SBoard.mk0 1 1 2)) 0
    (by rw [countMines_initBoard]; rfl) (by decide) (by decide) (by decide)]

/-- Claim C3 (code bug demonstration): on the well-formed 8 by 17 zero-mine
board `s3` in state Playing, `reveal` on the zero-count cursor cell (0,0)
should reveal the whole connected zero region (the entire board), but the
`int8_t`-truncated win threshold `(int8_t)(8*17 - 0) = -120` makes the very
first revealed cell satisfy the win check, so the fill stops after one cell:
the adjacent zero-count cell (0,1) of the region stays hidden. -/
theorem flood_fill_cut_short_by_threshold_bug :
    s3.done = false ∧ wellFormedB s3 ∧ countMines s3 = 0 ∧
    get s3 0 0 = zeroC ∧ get s3 0 1 = zeroC ∧ max_reveal s3 = -120 ∧
    reveal 0 0 rng0 0 s3 = some s3r ∧
    s3r.win = true ∧ s3r.done = true ∧ s3r.revealCount = 1 ∧ geti s3r 0 1 = BLANK :=
  ⟨by decide, by decide, by decide, by decide, by decide, by decide, rfl,
   by decide, by decide, by decide, by decide⟩

/-- Claim C4 (code bug demonstration): on the expert preset (16 by 30 grid,
99 mines) the win threshold should be 16*30 - 99 = 381, but `max_reveal`
returns the `int8_t` truncation `(int8_t)381 = 125`; the demonstration state
`s4` with 124 cells revealed is declared Won by the very next reveal, at
`revealedCount = 125`, far below 381. -/
theorem expert_win_threshold_truncated :
    s4.height = 16 ∧ s4.width = 30 ∧ s4.mines = 99 ∧ countMines s4 = 99 ∧
    (16 * 30 - 99 : Int) = 381 ∧ max_reveal s4 = 125 ∧ max_reveal s4 ≠ 381 ∧
    s4.revealCount = 124 ∧ s4.done = false ∧ get s4 4 10 ≠ MINE ∧
    reveal 0 0 rng0 0 s4 = some s4r ∧
    s4r.win = true ∧ s4r.done = true ∧ s4r.revealCount = 125 :=
  ⟨by decide, by decide, by decide, by decide, by decide, by decide, by decide,
   by decide, by decide, by decide, rfl, by decide, by decide, by decide⟩

/-- Counterexample for claim C6: `s6won` is a terminal Won state actually
reached by playing (init on a 1 by 2 one-mine board, then revealing the safe
cell); calling `move_cur` in it moves the cursor, and calling `flag` then
flags the hidden mine cell and bumps `flagCount` — neither is a no-op as the
claim states. -/
theorem terminal_flag_move_mutate_counterexample :
    (init 4 rngId 0 (SBoard.mk0 1 2 1)).isSome = true ∧
    (reveal 0 4 rngId 0 s6i).isSome = true ∧
    s6won.done = true ∧ s6won.win = true ∧
    (move_cur s6won 0 1).curX = 1 ∧ s6won.curX = 0 ∧
    (flag (move_cur s6won 0 1)).flagCount = 1 ∧ (move_cur s6won 0 1).flagCount = 0 ∧
    geti (flag (move_cur s6won 0 1)) 0 1 = FLAGGED ∧ geti s6won 0 1 = BLANK := by
  refine ⟨?_, ?_, ?_, ?_, ?_, ?_, ?_, ?_, ?_, ?_⟩ <;> decide

/-- Claim C6 as amended: in a terminal state (`done = true`, at least one
cell revealed, which holds in every reachable Won or Lost state), `reveal()`
is a complete no-op; `flag()` and `move()` are not outcome-guarded — flag may
still toggle the cursor cell and move may still change the cursor — but none
of the three operations changes the mine layer, the outcome flags, or
`revealedCount`, and move also leaves both cell layers and `flagCount`
untouched. -/
theorem terminal_ops_amended (s : SBoard) (dy dx : Int) (loopFuel placeFuel k : Nat)
    (rng : Nat → Nat) (hdone : s.done = true) (hrc : s.revealCount ≠ 0) :
    reveal loopFuel placeFuel rng k s = some s ∧
    ((flag s).board = s.board ∧ (flag s).done = s.done ∧ (flag s).win = s.win ∧
      (flag s).lose = s.lose ∧ (flag s).revealCount = s.revealCount ∧
      (flag s).curY = s.curY ∧ (flag s).curX = s.curX) ∧
    ((move_cur s dy dx).board = s.board ∧ (move_cur s dy dx).input_board = s.input_board ∧
      (move_cur s dy dx).done = s.done ∧ (move_cur s dy dx).win = s.win ∧
      (move_cur s dy dx).lose = s.lose ∧ (move_cur s dy dx).revealCount = s.revealCount ∧
      (move_cur s dy dx).flagCount = s.flagCount) := by
  refine ⟨?_, ?_, ?_⟩
  · unfold reveal
    rw [firstLoop_of_not loopFuel rng k placeFuel (fun hx => hrc hx.1)]
    show some (r_reveal (s.height.toNat * s.width.toNat + 2) s s.curY s.curX) = some s
    rw [r_reveal_of_done hdone]
  · unfold flag
    split_ifs <;> simp
  · rw [move_cur_eq]
    split_ifs <;> simp

/-- Witness for the amended C6: the reached Won state `s6won`. -/
theorem terminal_ops_amended_witness :
    reveal 0 4 rngId 0 s6won = some s6won ∧ (flag s6won).board = s6won.board ∧
    (move_cur s6won 0 1).win = s6won.win :=
  ⟨(terminal_ops_amended s6won 0 1 0 4 0 rngId (by decide) (by decide)).1,
   (terminal_ops_amended s6won 0 1 0 4 0 rngId (by decide) (by decide)).2.1.1,
   (terminal_ops_amended s6won 0 1 0 4 0 rngId (by decide) (by decide)).2.2.2.2.1⟩

theorem wrap8_wrap8_sub (a b : Int) : wrap8 (wrap8 a - b) = wrap8 (a - b) := by
  unfold wrap8; omega

theorem flag_of_blank {s : SBoard} (h : geti s s.curY s.curX = BLANK) :
    flag s = { seti s s.curY s.curX FLAGGED with flagCount := wrap8 (s.flagCount + 1) } := by
  unfold flag
  rw [if_pos h]

theorem flag_of_flagged {s : SBoard} (h : geti s s.curY s.curX = FLAGGED) :
    flag s = { seti s s.curY s.curX BLANK with flagCount := wrap8 (s.flagCount - 1) } := by
  unfold flag
  rw [if_neg (by rw [h]; decide), if_pos h]

theorem flag_of_other {s : SBoard} (h1 : geti s s.curY s.curX ≠ BLANK)
    (h2 : geti s s.curY s.curX ≠ FLAGGED) : flag s = s := by
  unfold flag
  rw [if_neg h1, if_neg h2]

theorem input_board_seti {s : SBoard} {y x : Int} (v : Int) (hv : is_valid s y x = true)
    (a b : Int) :
    (seti s y x v).input_board a b = if a = y ∧ b = x then v else s.input_board a b := by
  unfold seti
  rw [if_pos hv]

theorem flag_fields (s : SBoard) :
    (flag s).curY = s.curY ∧ (flag s).curX = s.curX ∧ (flag s).done = s.done ∧
    (flag s).win = s.win ∧ (flag s).lose = s.lose ∧ (flag s).revealCount = s.revealCount ∧
    (flag s).height = s.height ∧ (flag s).width = s.width ∧ (flag s).mines = s.mines ∧
    (flag s).board = s.board := by
  unfold flag
  split_ifs <;> simp

theorem flag_flag_of_blank {s : SBoard} (hfc1 : -128 ≤ s.flagCount)
    (hfc2 : s.flagCount ≤ 127) (hB : geti s s.curY s.curX = BLANK) : flag (flag s) = s := by
  have hv : is_valid s s.curY s.curX = true := valid_of_geti_ne (by rw [hB]; decide)
  have hib : s.input_board s.curY s.curX = BLANK := by
    rw [← geti_eq_of_valid hv]; exact hB
  have hff := flag_fields s
  have hcY : (flag s).curY = s.curY := hff.1
  have hcX : (flag s).curX = s.curX := hff.2.1
  have hfs : flag s =
      { seti s s.curY s.curX FLAGGED with flagCount := wrap8 (s.flagCount + 1) } :=
    flag_of_blank hB
  have hg2 : geti (flag s) (flag s).curY (flag s).curX = FLAGGED := by
    rw [hcY, hcX, hfs, geti_fc_update, geti_seti_self _ hv]
  have hfcv : (flag s).flagCount = wrap8 (s.flagCount + 1) := by rw [hfs]
  have hv2 : is_valid (flag s) (flag s).curY (flag s).curX = true := by
    rw [hcY, hcX, is_valid_of_dims_eq hff.2.2.2.2.2.2.1 hff.2.2.2.2.2.2.2.1]
    exact hv
  rw [flag_of_flagged hg2]
  refine SBoard.ext ?_ ?_ ?_ ?_ ?_ ?_ ?_ ?_ ?_ ?_ ?_ ?_
  · show (seti (flag s) (flag s).curY (flag s).curX BLANK).curY = s.curY
    rw [seti_curY, hcY]
  · show (seti (flag s) (flag s).curY (flag s).curX BLANK).curX = s.curX
    rw [seti_curX, hcX]
  · show (seti (flag s) (flag s).curY (flag s).curX BLANK).done = s.done
    rw [seti_done, hff.2.2.1]
  · show (seti (flag s) (flag s).curY (flag s).curX BLANK).win = s.win
    rw [seti_win, hff.2.2.2.1]
  · show (seti (flag s) (flag s).curY (flag s).curX BLANK).lose = s.lose
    rw [seti_lose, hff.2.2.2.2.1]
  · show (seti (flag s) (flag s).curY (flag s).curX BLANK).revealCount = s.revealCount
    rw [seti_revealCount, hff.2.2.2.2.2.1]
  · show wrap8 ((flag s).flagCount - 1) = s.flagCount
    rw [hfcv, wrap8_wrap8_sub,
      show s.flagCount + 1 - 1 = s.flagCount by omega, wrap8_eq_self hfc1 hfc2]
  · show (seti (flag s) (flag s).curY (flag s).curX BLANK).height = s.height
    rw [seti_height, hff.2.2.2.2.2.2.1]
  · show (seti (flag s) (flag s).curY (flag s).curX BLANK).width = s.width
    rw [seti_width, hff.2.2.2.2.2.2.2.1]
  · show (seti (flag s) (flag s).curY (flag s).curX BLANK).mines = s.mines
    rw [seti_mines, hff.2.2.2.2.2.2.2.2.1]
  · show (seti (flag s) (flag s).curY (flag s).curX BLANK).board = s.board
    rw [seti_board]
    exact hff.2.2.2.2.2.2.2.2.2
  · show (seti (flag s) (flag s).curY (flag s).curX BLANK).input_board = s.input_board
    funext a b
    rw [input_board_seti _ hv2, hcY, hcX]
    have hfib : (flag s).input_board a b =
        if a = s.curY ∧ b = s.curX then FLAGGED else s.input_board a b := by
      rw [hfs]
      show (seti s s.curY s.curX FLAGGED).input_board a b = _
      exact input_board_seti _ hv a b
    rw [hfib]
    by_cases hab : a = s.curY ∧ b = s.curX
    · rw [if_pos hab]
      obtain ⟨rfl, rfl⟩ := hab
      exact hib.symm
    · rw [if_neg hab, if_neg hab]

/-- Claim C7: `flag` on a hidden (blank) cursor cell marks it flagged and
applies the `int8_t` increment to `flagCount` (a true increment whenever the
counter is below `INT8_MAX`); on a flagged cell it restores the cell to
hidden and decrements; on a revealed (or any other) cell it changes nothing;
and two consecutive calls on the same untouched cell restore the state
exactly. -/
theorem flag_toggle_spec (s : SBoard) (hfc1 : -128 ≤ s.flagCount)
    (hfc2 : s.flagCount ≤ 127) :
    (geti s s.curY s.curX = BLANK →
      geti (flag s) s.curY s.curX = FLAGGED ∧
      (flag s).flagCount = wrap8 (s.flagCount + 1) ∧
      (s.flagCount < 127 → (flag s).flagCount = s.flagCount + 1) ∧
      flag (flag s) = s) ∧
    (geti s s.curY s.curX = FLAGGED →
      geti (flag s) s.curY s.curX = BLANK ∧
      (flag s).flagCount = wrap8 (s.flagCount - 1) ∧
      (-128 < s.flagCount → (flag s).flagCount = s.flagCount - 1) ∧
      geti s s.curY s.curX ≠ REVEAL) ∧
    (geti s s.curY s.curX = REVEAL → flag s = s) := by
  refine ⟨?_, ?_, ?_⟩
  · intro hB
    have hv : is_valid s s.curY s.curX = true := valid_of_geti_ne (by rw [hB]; decide)
    refine ⟨?_, ?_, ?_, flag_flag_of_blank hfc1 hfc2 hB⟩
    · rw [flag_of_blank hB, geti_fc_update, geti_seti_self _ hv]
    · rw [flag_of_blank hB]
    · intro hlt
      rw [flag_of_blank hB]
      show wrap8 (s.flagCount + 1) = s.flagCount + 1
      exact wrap8_eq_self (by omega) (by omega)
  · intro hF
    have hv : is_valid s s.curY s.curX = true := valid_of_geti_ne (by rw [hF]; decide)
    refine ⟨?_, ?_, ?_, by rw [hF]; decide⟩
    · rw [flag_of_flagged hF, geti_fc_update, geti_seti_self _ hv]
    · rw [flag_of_flagged hF]
    · intro hgt
      rw [flag_of_flagged hF]
      show wrap8 (s.flagCount - 1) = s.flagCount - 1
      exact wrap8_eq_self (by omega) (by omega)
  · intro hR
    exact flag_of_other (by rw [hR]; decide) (by rw [hR]; decide)

/-- Witness for C7: a fresh 1 by 1 zero-mine board with a blank cursor cell;
flagging flags it and flagging twice restores the state. -/
theorem flag_toggle_spec_witness :
    geti (flag (SBoard.mk0 1 1 0)) 0 0 = FLAGGED ∧
    flag (flag (SBoard.mk0 1 1 0)) = SBoard.mk0 1 1 0 := by
  have happ := (flag_toggle_spec (SBoard.mk0 1 1 0) (by decide) (by decide)).1 (by decide)
  exact ⟨happ.1, happ.2.2.2⟩

/-- Claim C8: with in-range (`int8_t`) deltas and an in-range cursor on a
board whose dimensions fit the engine, `move_cur` either moves the cursor to
exactly the requested coordinate (when it is in bounds) or leaves the state
unchanged, and after any sequence of moves with arbitrary deltas the cursor
is still in bounds. -/
theorem move_cur_in_bounds (s : SBoard) (dy dx : Int)
    (h1 : 1 ≤ s.height) (h2 : s.height ≤ 127) (h3 : 1 ≤ s.width) (h4 : s.width ≤ 127)
    (h5 : -128 ≤ dy) (h6 : dy ≤ 127) (h7 : -128 ≤ dx) (h8 : dx ≤ 127)
    (hcur : is_valid s s.curY s.curX = true) :
    (move_cur s dy dx = s ∨
      ((move_cur s dy dx).curY = s.curY + dy ∧ (move_cur s dy dx).curX = s.curX + dx ∧
        is_valid s (s.curY + dy) (s.curX + dx) = true)) ∧
    is_valid (move_cur s dy dx) (move_cur s dy dx).curY (move_cur s dy dx).curX = true ∧
    ∀ ds : List (Int × Int),
      is_valid (List.foldl (fun t d => move_cur t d.1 d.2) s ds)
        (List.foldl (fun t d => move_cur t d.1 d.2) s ds).curY
        (List.foldl (fun t d => move_cur t d.1 d.2) s ds).curX = true := by
  have hcb := (is_valid_iff s s.curY s.curX).mp hcur
  have hfold : ∀ (ds : List (Int × Int)) (t : SBoard),
      is_valid t t.curY t.curX = true →
      is_valid (List.foldl (fun t d => move_cur t d.1 d.2) t ds)
        (List.foldl (fun t d => move_cur t d.1 d.2) t ds).curY
        (List.foldl (fun t d => move_cur t d.1 d.2) t ds).curX = true := by
    intro ds
    induction ds with
    | nil => intro t ht; exact ht
    | cons d rest ihd =>
        intro t ht
        simp only [List.foldl_cons]
        apply ihd
        rw [move_cur_eq]
        by_cases hvd : is_valid t (wrap8 (d.1 + t.curY)) (wrap8 (d.2 + t.curX)) = true
        · rw [if_pos hvd]
          show is_valid { t with curY := wrap8 (d.1 + t.curY), curX := wrap8 (d.2 + t.curX) }
            (wrap8 (d.1 + t.curY)) (wrap8 (d.2 + t.curX)) = true
          rw [is_valid_of_dims_eq rfl rfl]
          exact hvd
        · rw [if_neg hvd]
          exact ht
  refine ⟨?_, ?_, fun ds => hfold ds s hcur⟩
  · rw [move_cur_eq]
    by_cases hval : is_valid s (wrap8 (dy + s.curY)) (wrap8 (dx + s.curX)) = true
    · right
      rw [if_pos hval]
      have hb := (is_valid_iff s (wrap8 (dy + s.curY)) (wrap8 (dx + s.curX))).mp hval
      have hYe : wrap8 (dy + s.curY) = s.curY + dy := by unfold wrap8 at hb ⊢; omega
      have hXe : wrap8 (dx + s.curX) = s.curX + dx := by unfold wrap8 at hb ⊢; omega
      rw [hYe, hXe] at hval
      exact ⟨hYe, hXe, hval⟩
    · left
      rw [if_neg hval]
  · rw [move_cur_eq]
    by_cases hval : is_valid s (wrap8 (dy + s.curY)) (wrap8 (dx + s.curX)) = true
    · rw [if_pos hval]
      show is_valid { s with curY := wrap8 (dy + s.curY), curX := wrap8 (dx + s.curX) }
        (wrap8 (dy + s.curY)) (wrap8 (dx + s.curX)) = true
      rw [is_valid_of_dims_eq rfl rfl]
      exact hval
    · rw [if_neg hval]
      exact hcur

/-- Witness for C8: the one-cell board, delta (0,0). -/
theorem move_cur_in_bounds_witness :
    (move_cur (SBoard.mk0 1 1 0) 0 0 = SBoard.mk0 1 1 0 ∨
      ((move_cur (SBoard.mk0 1 1 0) 0 0).curY = (SBoard.mk0 1 1 0).curY + 0 ∧
        (move_cur (SBoard.mk0 1 1 0) 0 0).curX = (SBoard.mk0 1 1 0).curX + 0 ∧
        is_valid (SBoard.mk0 1 1 0) ((SBoard.mk0 1 1 0).curY + 0)
          ((SBoard.mk0 1 1 0).curX + 0) = true)) ∧
    is_valid (move_cur (SBoard.mk0 1 1 0) 0 0) (move_cur (SBoard.mk0 1 1 0) 0 0).curY
      (move_cur (SBoard.mk0 1 1 0) 0 0).curX = true := by
  have happ := move_cur_in_bounds (SBoard.mk0 1 1 0) 0 0 (by decide) (by decide) (by decide)
    (by decide) (by decide) (by decide) (by decide) (by decide) (by decide)
  exact ⟨happ.1, happ.2.1⟩

/-- Claim C10: when the cursor cell is flagged and the first-move mine check
cannot fire (some cell already revealed, or the cursor cell is not a mine),
`reveal` returns the state completely unchanged: the flag blocks the directly
targeted cell itself. -/
theorem reveal_on_flagged_cursor_noop (loopFuel placeFuel k : Nat) (rng : Nat → Nat)
    (s : SBoard) (hflag : geti s s.curY s.curX = FLAGGED)
    (hsafe : 0 < s.revealCount ∨ get s s.curY s.curX ≠ MINE) :
    reveal loopFuel placeFuel rng k s = some s := by
  have hcond : ¬(s.revealCount = 0 ∧ get s s.curY s.curX = MINE) := by
    rintro ⟨hz, hmm⟩
    rcases hsafe with h | h
    · omega
    · exact h hmm
  unfold reveal
  rw [firstLoop_of_not loopFuel rng k placeFuel hcond]
  show some (r_reveal (s.height.toNat * s.width.toNat + 2) s s.curY s.curX) = some s
  by_cases hdone : s.done = true
  · rw [r_reveal_of_done hdone]
  · rw [r_reveal_of_flag_any _ (by simpa using hdone) hflag]

/-- Witness for C10: a one-cell zero-mine board whose only cell is flagged. -/
theorem reveal_on_flagged_cursor_noop_witness : reveal 0 0 rng0 0 s10 = some s10 :=
  reveal_on_flagged_cursor_noop 0 0 0 rng0 s10 (by decide) (Or.inr (by decide))

theorem unrevealed_le_cells (s : SBoard) :
    unrevealed s ≤ s.height.toNat * s.width.toNat := by
  unfold unrevealed
  calc (coordList s.height.toNat s.width.toNat).countP _
      ≤ (coordList s.height.toNat s.width.toNat).length := List.countP_le_length _
    _ = s.height.toNat * s.width.toNat := length_coordList _ _

/-- Claim C9: the flood fill always terminates — the fuel
`height * width + 2` used by `reveal` is exhaustive, in that any two fuels at
or beyond it produce the same state — and, instrumenting the fill with the
list of cells it processes (invocations passing the game-over and flag
guards, which are exactly the invocations that reveal a cell), no cell is
ever processed twice and at most `height * width` cells are processed in
total. -/
theorem flood_fill_terminates_no_revisit (s : SBoard) (y x : Int)
    (h1 : 1 ≤ s.height) (h2 : s.height ≤ 127) (h3 : 1 ≤ s.width) (h4 : s.width ≤ 127)
    (hv : is_valid s y x = true) :
    (∀ f1 f2 : Nat, s.height.toNat * s.width.toNat + 2 ≤ f1 →
      s.height.toNat * s.width.toNat + 2 ≤ f2 → r_reveal f1 s y x = r_reveal f2 s y x) ∧
    (r_revealT (s.height.toNat * s.width.toNat + 2) s y x).2.Nodup ∧
    (r_revealT (s.height.toNat * s.width.toNat + 2) s y x).2.length ≤
      s.height.toNat * s.width.toNat := by
  refine ⟨?_, (r_revealT_spec _ s y x hv).1, trace_length_le _ s y x hv⟩
  intro f1 f2 hf1 hf2
  have hun := unrevealed_le_cells s
  exact r_reveal_fuel_stable s y x f1 f2 hv (by omega) (by omega)

/-- Witness for C9: the one-cell zero-mine board `sC1`; fuels 3 and 4 agree,
and the processed-cell list has no duplicates and length at most one. -/
theorem flood_fill_terminates_no_revisit_witness :
    r_reveal 3 sC1 0 0 = r_reveal 4 sC1 0 0 ∧
    (r_revealT 3 sC1 0 0).2.Nodup ∧ (r_revealT 3 sC1 0 0).2.length ≤ 1 := by
  have happ := flood_fill_terminates_no_revisit sC1 0 0 (by decide) (by decide) (by decide)
    (by decide) (by decide)
  exact ⟨happ.1 3 4 (by decide) (by decide), happ.2.1, happ.2.2⟩

end Minesweeper
